import Mathlib

/-!
Verification of the maze generator and A* solver in
`random-maze-generator/src/app.py`.

The Python source is shallowly embedded: the mutable numpy grids become
lists of lists, the dictionaries (`g_score`, `f_score`, `came_from`)
become association lists, the `queue.PriorityQueue` becomes a list from
which the lexicographically least `(f, cell)` pair is removed, and the
unbounded loops/recursions are given explicit fuel, with theorems showing
the fuel bounds suffice.  Python exceptions are modelled with `Except` /
`Option` results.
-/

/-- A cell address, a Python `(int, int)` tuple. -/
abbrev Cell := Int × Int

/-! ## Association lists (model of Python `dict`) -/

/-- Dictionary lookup: first binding of the key wins. -/
def lookupA {α : Type} : List (Cell × α) → Cell → Option α
  | [], _ => none
  | (k, v) :: rest, q => if q = k then some v else lookupA rest q

/-- Dictionary update: replace the first binding of the key, or append a new
binding at the end.  Extensionally this is Python's `d[k] = v`. -/
def insertA {α : Type} : List (Cell × α) → Cell → α → List (Cell × α)
  | [], k, v => [(k, v)]
  | (k0, v0) :: rest, k, v =>
      if k = k0 then (k, v) :: rest else (k0, v0) :: insertA rest k v

theorem lookupA_insert_self {α : Type} (l : List (Cell × α)) (k : Cell) (v : α) :
    lookupA (insertA l k v) k = some v := by
  induction l with
  | nil => simp [insertA, lookupA]
  | cons p rest ih =>
    by_cases h : k = p.1
    · simp [insertA, h, lookupA]
    · simp [insertA, h, lookupA, ih]

theorem lookupA_insert_ne {α : Type} (l : List (Cell × α)) (k q : Cell) (v : α)
    (h : q ≠ k) : lookupA (insertA l k v) q = lookupA l q := by
  induction l with
  | nil => simp [insertA, lookupA, h]
  | cons p rest ih =>
    by_cases hk : k = p.1
    · subst hk
      simp [insertA, lookupA, h]
    · by_cases hq : q = p.1
      · simp [insertA, hk, lookupA, hq]
      · simp [insertA, hk, lookupA, hq, ih]

theorem lookupA_mem {α : Type} (l : List (Cell × α)) (k : Cell) (v : α)
    (h : lookupA l k = some v) : (k, v) ∈ l := by
  induction l with
  | nil => simp [lookupA] at h
  | cons p rest ih =>
    by_cases hk : k = p.1
    · subst hk
      simp [lookupA] at h
      subst h
      exact List.mem_cons_self _ _
    · simp [lookupA, hk] at h
      exact List.mem_cons_of_mem _ (ih h)

theorem lookupA_isSome_of_mem {α : Type} (l : List (Cell × α)) (k : Cell) (v : α)
    (h : (k, v) ∈ l) : (lookupA l k).isSome := by
  induction l with
  | nil => simp at h
  | cons p rest ih =>
    rcases List.mem_cons.mp h with h1 | h1
    · subst h1
      simp [lookupA]
    · by_cases hk : k = p.1
      · simp [lookupA, hk]
      · simp [lookupA, hk, ih h1]

theorem lookupA_eq_none_iff {α : Type} (l : List (Cell × α)) (k : Cell) :
    lookupA l k = none ↔ k ∉ l.map Prod.fst := by
  induction l with
  | nil => simp [lookupA]
  | cons p rest ih =>
    by_cases hk : k = p.1
    · simp [lookupA, hk]
    · simp [lookupA, hk, ih, Ne.symm, hk]

theorem mem_insertA {α : Type} (l : List (Cell × α)) (k : Cell) (v : α) (x : Cell × α)
    (h : x ∈ insertA l k v) : x = (k, v) ∨ x ∈ l := by
  induction l with
  | nil => simp [insertA] at h; simp [h]
  | cons p rest ih =>
    by_cases hk : k = p.1
    · simp [insertA, hk] at h
      rcases h with h | h
      · left; simp [h, hk]
      · right; exact List.mem_cons_of_mem _ h
    · simp only [insertA, hk, if_false] at h
      rcases List.mem_cons.mp h with h | h
      · right; rw [h]; exact List.mem_cons_self _ _
      · rcases ih h with h1 | h1
        · left; exact h1
        · right; exact List.mem_cons_of_mem _ h1

theorem length_insertA_of_none {α : Type} (l : List (Cell × α)) (k : Cell) (v : α)
    (h : lookupA l k = none) : (insertA l k v).length = l.length + 1 := by
  induction l with
  | nil => simp [insertA]
  | cons p rest ih =>
    by_cases hk : k = p.1
    · simp [lookupA, hk] at h
    · simp only [lookupA, hk, if_false] at h
      simp [insertA, hk, ih h]

theorem length_insertA_of_some {α : Type} (l : List (Cell × α)) (k : Cell) (v w : α)
    (h : lookupA l k = some w) : (insertA l k v).length = l.length := by
  induction l with
  | nil => simp [lookupA] at h
  | cons p rest ih =>
    by_cases hk : k = p.1
    · simp [insertA, hk]
    · simp only [lookupA, hk, if_false] at h
      simp [insertA, hk, ih h]

theorem keys_insertA_of_some {α : Type} (l : List (Cell × α)) (k : Cell) (v w : α)
    (h : lookupA l k = some w) :
    (insertA l k v).map Prod.fst = l.map Prod.fst := by
  induction l with
  | nil => simp [lookupA] at h
  | cons p rest ih =>
    by_cases hk : k = p.1
    · simp [insertA, hk]
    · simp only [lookupA, hk, if_false] at h
      simp [insertA, hk, ih h]

theorem keys_insertA_of_none {α : Type} (l : List (Cell × α)) (k : Cell) (v : α)
    (h : lookupA l k = none) :
    (insertA l k v).map Prod.fst = l.map Prod.fst ++ [k] := by
  induction l with
  | nil => simp [insertA]
  | cons p rest ih =>
    by_cases hk : k = p.1
    · simp [lookupA, hk] at h
    · simp only [lookupA, hk, if_false] at h
      simp [insertA, hk, ih h]

/-- Sum of the stored values, used by the termination potential. -/
def sumA (l : List (Cell × Nat)) : Nat := (l.map Prod.snd).sum

theorem sumA_insertA_of_none (l : List (Cell × Nat)) (k : Cell) (v : Nat)
    (h : lookupA l k = none) : sumA (insertA l k v) = sumA l + v := by
  induction l with
  | nil => simp [insertA, sumA]
  | cons p rest ih =>
    by_cases hk : k = p.1
    · simp [lookupA, hk] at h
    · simp only [lookupA, hk, if_false] at h
      have ih' := ih h
      simp [insertA, hk, sumA, List.map_cons, List.sum_cons] at ih' ⊢
      omega

theorem sumA_insertA_of_some (l : List (Cell × Nat)) (k : Cell) (v w : Nat)
    (h : lookupA l k = some w) : sumA (insertA l k v) + w = sumA l + v := by
  induction l with
  | nil => simp [lookupA] at h
  | cons p rest ih =>
    by_cases hk : k = p.1
    · subst hk
      simp [lookupA] at h
      subst h
      simp [insertA, sumA, List.map_cons, List.sum_cons]
      omega
    · simp only [lookupA, hk, if_false] at h
      have ih' := ih h
      simp [insertA, hk, sumA, List.map_cons, List.sum_cons] at ih' ⊢
      omega

/-! ## The grid

`MazeSolver.__init__` stores the numpy array and reads
`self.height, self.width = maze.shape`. -/

/-- A 2D integer grid (the numpy `maze` array), row-major. -/
structure Grid where
  cells : List (List Int)
deriving Repr, DecidableEq

/-- `maze.shape[0]`. -/
def Grid.height (g : Grid) : Nat := g.cells.length

/-- `maze.shape[1]` (rows of a numpy 2D array all have this length). -/
def Grid.width (g : Grid) : Nat := (g.cells.headD []).length

/-- Read `maze[i, j]`.  All reads performed by the solver are guarded by
`0 <= i < height` and `0 <= j < width`, so the out-of-range default is never
consulted on any execution path of the embedded code. -/
def Grid.get (g : Grid) (c : Cell) : Int :=
  if 0 ≤ c.1 ∧ 0 ≤ c.2 then ((g.cells.getD c.1.toNat []).getD c.2.toNat 0) else 0

/-- `MazeSolver.heuristic`: Manhattan distance
`abs(a[0]-b[0]) + abs(a[1]-b[1])`. -/
def heuristic (a b : Cell) : Nat := (a.1 - b.1).natAbs + (a.2 - b.2).natAbs

/-- `MazeSolver.get_neighbors`: the four unit directions `(0,1),(1,0),(0,-1),(-1,0)`
filtered by `0 <= nx < height`, `0 <= ny < width` and `maze[nx, ny] != 0`,
collected in order. -/
def get_neighbors (g : Grid) (current : Cell) : List Cell :=
  [((0:Int), (1:Int)), (1, 0), (0, -1), (-1, 0)].filterMap fun d =>
    if 0 ≤ current.1 + d.1 ∧ current.1 + d.1 < (g.height : Int) ∧
        0 ≤ current.2 + d.2 ∧ current.2 + d.2 < (g.width : Int) ∧
        g.get (current.1 + d.1, current.2 + d.2) ≠ 0 then
      some (current.1 + d.1, current.2 + d.2)
    else none

theorem mem_get_neighbors {g : Grid} {c n : Cell} (h : n ∈ get_neighbors g c) :
    (n = (c.1, c.2 + 1) ∨ n = (c.1 + 1, c.2) ∨ n = (c.1, c.2 - 1) ∨ n = (c.1 - 1, c.2)) ∧
    0 ≤ n.1 ∧ n.1 < (g.height : Int) ∧ 0 ≤ n.2 ∧ n.2 < (g.width : Int) ∧
    g.get n ≠ 0 := by
  rw [get_neighbors, List.mem_filterMap] at h
  obtain ⟨d, hd, hn⟩ := h
  split at hn
  case isTrue hb =>
    injection hn with hn2
    subst hn2
    refine ⟨?_, hb.1, hb.2.1, hb.2.2.1, hb.2.2.2.1, hb.2.2.2.2⟩
    simp only [List.mem_cons, List.not_mem_nil, or_false] at hd
    rcases hd with rfl | rfl | rfl | rfl
    · left; simp
    · right; left; simp
    · right; right; left; simp [sub_eq_add_neg]
    · right; right; right; simp [sub_eq_add_neg]
  case isFalse hb => simp at hn

/-- A cell is never its own neighbour (every candidate moves by one unit). -/
theorem self_not_mem_get_neighbors (g : Grid) (c : Cell) :
    c ∉ get_neighbors g c := by
  intro h
  obtain ⟨x, y⟩ := c
  rcases (mem_get_neighbors h).1 with h1 | h1 | h1 | h1 <;>
    · simp only [Prod.mk.injEq] at h1
      omega

/-- Adjacent cells are at Manhattan distance exactly 1. -/
theorem heuristic_of_neighbor {g : Grid} {c n : Cell} (h : n ∈ get_neighbors g c) :
    heuristic c n = 1 := by
  rcases (mem_get_neighbors h).1 with h1 | h1 | h1 | h1 <;>
    · subst h1
      simp only [heuristic]
      omega

/-- Manhattan distance satisfies the triangle inequality along a step. -/
theorem heuristic_step_le (a b e : Cell) (h : heuristic a b = 1) :
    heuristic a e ≤ 1 + heuristic b e := by
  simp only [heuristic] at *
  omega

/-! ## Walks through the grid

A walk records the successive cells entered after the starting cell; each
entered cell must be a (in-bounds, non-wall) neighbour of its predecessor.
This is precisely a sequence of "4-directional moves through `Path` cells". -/

inductive WalkVia (g : Grid) : Cell → List Cell → Cell → Prop
  | nil (a : Cell) : WalkVia g a [] a
  | cons {a b c : Cell} {l : List Cell} (hab : b ∈ get_neighbors g a)
      (h : WalkVia g b l c) : WalkVia g a (b :: l) c

/-- `end` is reachable from `start` by 4-directional moves through path cells. -/
def Reaches (g : Grid) (s e : Cell) : Prop := ∃ l, WalkVia g s l e

theorem WalkVia.append {g : Grid} {a b c : Cell} {l1 l2 : List Cell}
    (h1 : WalkVia g a l1 b) (h2 : WalkVia g b l2 c) :
    WalkVia g a (l1 ++ l2) c := by
  induction h1 with
  | nil => simpa using h2
  | cons hab h ih => exact WalkVia.cons hab (ih h2)

theorem WalkVia.snoc {g : Grid} {a b c : Cell} {l : List Cell}
    (h1 : WalkVia g a l b) (h2 : c ∈ get_neighbors g b) :
    WalkVia g a (l ++ [c]) c :=
  h1.append (WalkVia.cons h2 (WalkVia.nil c))

/-- Every cell entered during a walk is in bounds and is a path cell. -/
theorem WalkVia.mem_props {g : Grid} {a c : Cell} {l : List Cell}
    (h : WalkVia g a l c) : ∀ x ∈ l,
      0 ≤ x.1 ∧ x.1 < (g.height : Int) ∧ 0 ≤ x.2 ∧ x.2 < (g.width : Int) ∧
      g.get x ≠ 0 := by
  induction h with
  | nil => simp
  | cons hab h ih =>
    intro x hx
    rcases List.mem_cons.mp hx with rfl | hx
    · exact (mem_get_neighbors hab).2
    · exact ih x hx

/-- The last cell of a walk. -/
theorem WalkVia.getLast {g : Grid} {a c : Cell} {l : List Cell}
    (h : WalkVia g a l c) : (a :: l).getLast (by simp) = c := by
  induction h with
  | nil => simp
  | cons hab h ih =>
    rename_i a' b' c' l'
    rw [List.getLast_cons (by simp)]
    exact ih

/-- Successive cells of a walk are at Manhattan distance 1. -/
theorem WalkVia.chain_adjacent {g : Grid} {a c : Cell} {l : List Cell}
    (h : WalkVia g a l c) : List.Chain' (fun x y => heuristic x y = 1) (a :: l) := by
  induction h with
  | nil => simp
  | cons hab h ih =>
    exact List.Chain'.cons (heuristic_of_neighbor hab) ih

/-- Manhattan distance is a lower bound on walk length. -/
theorem WalkVia.heuristic_le {g : Grid} {a c : Cell} {l : List Cell}
    (h : WalkVia g a l c) : heuristic a c ≤ l.length := by
  induction h with
  | nil => simp [heuristic]
  | cons hab h ih =>
    rename_i a' b' c' l'
    calc heuristic a' c' ≤ 1 + heuristic b' c' :=
          heuristic_step_le _ _ _ (heuristic_of_neighbor hab)
    _ ≤ 1 + l'.length := by omega
    _ = (b' :: l').length := by simp [Nat.add_comm]

/-! ## The in-bounds cells, used for counting arguments -/

/-- All in-bounds cells of the grid, as integer pairs. -/
def allCells (g : Grid) : List Cell :=
  (List.range g.height).flatMap fun i =>
    (List.range g.width).map fun j => (Int.ofNat i, Int.ofNat j)

theorem length_allCells (g : Grid) : (allCells g).length = g.height * g.width := by
  rw [allCells]
  generalize g.height = h
  induction h with
  | zero => simp
  | succ n ih =>
    rw [List.range_succ, List.flatMap_append, List.length_append, ih,
      List.flatMap_cons, List.flatMap_nil, List.append_nil, List.length_map,
      List.length_range]
    ring

theorem mem_allCells {g : Grid} {c : Cell}
    (h1 : 0 ≤ c.1) (h2 : c.1 < (g.height : Int)) (h3 : 0 ≤ c.2)
    (h4 : c.2 < (g.width : Int)) : c ∈ allCells g := by
  have hmem : ((c.1.toNat : Int), (c.2.toNat : Int)) ∈ allCells g := by
    rw [allCells]
    refine List.mem_flatMap.mpr ⟨c.1.toNat, ?_, List.mem_map.mpr ⟨c.2.toNat, ?_, rfl⟩⟩
    · exact List.mem_range.mpr (by omega)
    · exact List.mem_range.mpr (by omega)
  have he : ((c.1.toNat : Int), (c.2.toNat : Int)) = c := by
    obtain ⟨x, y⟩ := c
    simp only [Prod.mk.injEq]
    constructor <;> omega
  rwa [he] at hmem

/-- Neighbours are always in-bounds cells. -/
theorem get_neighbors_subset_allCells {g : Grid} {c n : Cell}
    (h : n ∈ get_neighbors g c) : n ∈ allCells g := by
  obtain ⟨_, h1, h2, h3, h4, _⟩ := mem_get_neighbors h
  exact mem_allCells h1 h2 h3 h4

/-- A duplicate-free association list whose keys come from `s` and the grid
has at most `height * width + 1` entries. -/
theorem length_le_of_keys {α : Type} (g : Grid) (s : Cell) (l : List (Cell × α))
    (hnd : (l.map Prod.fst).Nodup)
    (hk : ∀ v x, (v, x) ∈ l → v = s ∨ v ∈ allCells g) :
    l.length ≤ g.height * g.width + 1 := by
  have hsub : l.map Prod.fst ⊆ s :: allCells g := by
    intro v hv
    rcases List.mem_map.mp hv with ⟨⟨v1, x⟩, hmem, rfl⟩
    rcases hk v1 x hmem with h | h
    · rw [h]; exact List.mem_cons_self _ _
    · exact List.mem_cons_of_mem _ h
  have := (List.Nodup.subperm hnd hsub).length_le
  simp [length_allCells] at this
  omega

/-! ## Reference breadth-first search

The specification's test oracle: an independent breadth-first search over the
same grid, layer by layer, used to define the true shortest-path length. -/

/-- Visit one candidate cell: record it at distance `d+1` and add it to the
next frontier unless it has already been seen. -/
def bfsVisit (d : Nat) (acc : List Cell × List (Cell × Nat)) (n : Cell) :
    List Cell × List (Cell × Nat) :=
  match lookupA acc.2 n with
  | some _ => acc
  | none => (acc.1 ++ [n], insertA acc.2 n (d + 1))

/-- Expand one frontier cell through all its neighbours. -/
def bfsExpand (g : Grid) (d : Nat) (acc : List Cell × List (Cell × Nat))
    (c : Cell) : List Cell × List (Cell × Nat) :=
  (get_neighbors g c).foldl (bfsVisit d) acc

/-- One breadth-first layer: expand every cell of the current frontier. -/
def bfsStep (g : Grid) (frontier : List Cell) (dist : List (Cell × Nat))
    (d : Nat) : List Cell × List (Cell × Nat) :=
  frontier.foldl (bfsExpand g d) ([], dist)

/-- Run `k` breadth-first layers, returning the final frontier and table. -/
def bfsRun (g : Grid) : Nat → List Cell → List (Cell × Nat) → Nat →
    List Cell × List (Cell × Nat)
  | 0, f, dist, _ => (f, dist)
  | k + 1, f, dist, d =>
      let fd := bfsStep g f dist d
      bfsRun g k fd.1 fd.2 (d + 1)

/-- The completed distance table from `s`: enough layers are run for the
frontier to die out (at most `height*width + 1` cells ever enter the table). -/
def bfsTable (g : Grid) (s : Cell) : List (Cell × Nat) :=
  (bfsRun g (g.height * g.width + 2) [s] [(s, 0)] 0).2

/-- Reference shortest-path length: breadth-first distance from `s` to `e`,
`none` when `e` was never reached. -/
def bfsDist (g : Grid) (s e : Cell) : Option Nat := lookupA (bfsTable g s) e

/-! ## Correctness of the reference breadth-first search -/

theorem lookupA_of_mem_nodup {α : Type} {l : List (Cell × α)} {k : Cell} {v : α}
    (hnd : (l.map Prod.fst).Nodup) (h : (k, v) ∈ l) : lookupA l k = some v := by
  induction l with
  | nil => simp at h
  | cons p rest ih =>
    rcases List.mem_cons.mp h with h1 | h1
    · subst h1
      simp [lookupA]
    · have hk : k ≠ p.1 := by
        intro he
        have hmem : k ∈ rest.map Prod.fst := List.mem_map.mpr ⟨(k, v), h1, rfl⟩
        rw [he] at hmem
        rw [List.map_cons, List.nodup_cons] at hnd
        exact hnd.1 hmem
      simp only [lookupA, hk, if_neg, not_false_iff]
      rw [List.map_cons, List.nodup_cons] at hnd
      exact ih hnd.2 h1

/-- Mid-layer invariant: relation between the table `T` at the start of a
breadth-first layer at depth `d` and the accumulator `(nf, T2)` built while
the layer's frontier is processed. -/
structure BMid (g : Grid) (s : Cell) (d : Nat) (T : List (Cell × Nat))
    (nf : List Cell) (T2 : List (Cell × Nat)) : Prop where
  pres : ∀ v m, lookupA T v = some m → lookupA T2 v = some m
  origin : ∀ v m, (v, m) ∈ T2 → (v, m) ∈ T ∨ (m = d + 1 ∧ v ∈ nf)
  nf_val : ∀ c ∈ nf, lookupA T2 c = some (d + 1)
  walk_exact : ∀ v m, (v, m) ∈ T2 → ∃ l, WalkVia g s l v ∧ l.length = m
  nodupKeys : (T2.map Prod.fst).Nodup
  keysIn : ∀ v m, (v, m) ∈ T2 → v = s ∨ v ∈ allCells g
  len : T2.length = T.length + nf.length

/-- Effect of visiting a single neighbour `n` of a frontier cell `c`. -/
theorem bfsVisit_pres {g : Grid} {s : Cell} {d : Nat} {T : List (Cell × Nat)}
    {nf : List Cell} {T2 : List (Cell × Nat)} {c n : Cell}
    (hmid : BMid g s d T nf T2) (hn : n ∈ get_neighbors g c)
    (hc : lookupA T2 c = some d)
    (hT : ∀ v m, (v, m) ∈ T → m ≤ d) :
    BMid g s d T (bfsVisit d (nf, T2) n).1 (bfsVisit d (nf, T2) n).2 ∧
    (∀ v m, lookupA T2 v = some m → lookupA (bfsVisit d (nf, T2) n).2 v = some m) ∧
    (∃ m', lookupA (bfsVisit d (nf, T2) n).2 n = some m' ∧ m' ≤ d + 1) := by
  rcases hl : lookupA T2 n with _ | m0
  · -- n is new: appended to the frontier and recorded at distance d+1
    have hres : bfsVisit d (nf, T2) n = (nf ++ [n], insertA T2 n (d + 1)) := by
      simp [bfsVisit, hl]
    rw [hres]
    have hpres2 : ∀ v m, lookupA T2 v = some m →
        lookupA (insertA T2 n (d + 1)) v = some m := by
      intro v m hv
      have hvn : v ≠ n := by
        intro he; subst he; rw [hv] at hl; exact absurd hl (by simp)
      rw [lookupA_insert_ne _ _ _ _ hvn]
      exact hv
    refine ⟨⟨?_, ?_, ?_, ?_, ?_, ?_, ?_⟩, hpres2,
      ⟨d + 1, lookupA_insert_self T2 n (d + 1), le_refl _⟩⟩
    · intro v m hv; exact hpres2 v m (hmid.pres v m hv)
    · intro v m hv
      rcases mem_insertA _ _ _ _ hv with h1 | h1
      · simp only [Prod.mk.injEq] at h1
        right
        refine ⟨h1.2, ?_⟩
        rw [h1.1]
        exact List.mem_append_right _ (List.mem_singleton.mpr rfl)
      · rcases hmid.origin v m h1 with h2 | h2
        · left; exact h2
        · right; exact ⟨h2.1, List.mem_append_left _ h2.2⟩
    · intro x hx
      rcases List.mem_append.mp hx with h1 | h1
      · exact hpres2 x (d + 1) (hmid.nf_val x h1)
      · rw [List.mem_singleton.mp h1]
        exact lookupA_insert_self T2 n (d + 1)
    · intro v m hv
      rcases mem_insertA _ _ _ _ hv with h1 | h1
      · simp only [Prod.mk.injEq] at h1
        obtain ⟨l0, hw, hlen⟩ := hmid.walk_exact c d (lookupA_mem _ _ _ hc)
        rw [h1.1, h1.2]
        exact ⟨l0 ++ [n], hw.snoc hn, by simp [hlen]⟩
      · exact hmid.walk_exact v m h1
    · rw [keys_insertA_of_none _ _ _ hl]
      refine List.Nodup.append hmid.nodupKeys (List.nodup_singleton n) ?_
      intro a ha hb
      rw [List.mem_singleton.mp hb] at ha
      exact (lookupA_eq_none_iff T2 n).mp hl ha
    · intro v m hv
      rcases mem_insertA _ _ _ _ hv with h1 | h1
      · simp only [Prod.mk.injEq] at h1
        rw [h1.1]
        right; exact get_neighbors_subset_allCells hn
      · exact hmid.keysIn v m h1
    · rw [length_insertA_of_none _ _ _ hl, hmid.len]
      simp
      omega
  · -- n was already seen: nothing changes
    have hres : bfsVisit d (nf, T2) n = (nf, T2) := by simp [bfsVisit, hl]
    rw [hres]
    refine ⟨hmid, fun v m hv => hv, ⟨m0, hl, ?_⟩⟩
    rcases hmid.origin n m0 (lookupA_mem _ _ _ hl) with h1 | h1
    · exact Nat.le_succ_of_le (hT n m0 h1)
    · omega

/-- Effect of visiting a whole list of neighbours of the frontier cell `c`. -/
theorem bfsVisit_fold_pres {g : Grid} {s : Cell} {d : Nat} {T : List (Cell × Nat)}
    {c : Cell} (L : List Cell) :
    ∀ (nf : List Cell) (T2 : List (Cell × Nat)), BMid g s d T nf T2 →
    (∀ n ∈ L, n ∈ get_neighbors g c) → lookupA T2 c = some d →
    (∀ v m, (v, m) ∈ T → m ≤ d) →
    BMid g s d T (L.foldl (bfsVisit d) (nf, T2)).1 (L.foldl (bfsVisit d) (nf, T2)).2 ∧
    (∀ v m, lookupA T2 v = some m →
      lookupA (L.foldl (bfsVisit d) (nf, T2)).2 v = some m) ∧
    (∀ n ∈ L, ∃ m', lookupA (L.foldl (bfsVisit d) (nf, T2)).2 n = some m' ∧
      m' ≤ d + 1) := by
  induction L with
  | nil =>
    intro nf T2 hmid _ _ _
    exact ⟨hmid, fun v m hv => hv, by simp⟩
  | cons n L' ih =>
    intro nf T2 hmid hL hc hT
    obtain ⟨hmid1, hpres1, m0, hm0, hm0le⟩ :=
      bfsVisit_pres hmid (hL n (List.mem_cons_self _ _)) hc hT
    rcases hv : bfsVisit d (nf, T2) n with ⟨nf1, T21⟩
    rw [hv] at hmid1 hpres1 hm0
    have hc1 : lookupA T21 c = some d := hpres1 c d hc
    obtain ⟨hmid2, hpres2, hcov2⟩ := ih nf1 T21 hmid1
      (fun x hx => hL x (List.mem_cons_of_mem _ hx)) hc1 hT
    rw [List.foldl_cons, hv]
    refine ⟨hmid2, fun v m hvv => hpres2 v m (hpres1 v m hvv), ?_⟩
    intro x hx
    rcases List.mem_cons.mp hx with h1 | h1
    · subst h1
      exact ⟨m0, hpres2 x m0 hm0, hm0le⟩
    · exact hcov2 x h1

/-- Effect of expanding a whole frontier prefix. -/
theorem bfsExpand_fold_pres {g : Grid} {s : Cell} {d : Nat} {T : List (Cell × Nat)}
    (todo : List Cell) :
    ∀ (nf : List Cell) (T2 : List (Cell × Nat)), BMid g s d T nf T2 →
    (∀ c ∈ todo, lookupA T c = some d) →
    (∀ v m, (v, m) ∈ T → m ≤ d) →
    BMid g s d T (todo.foldl (bfsExpand g d) (nf, T2)).1
      (todo.foldl (bfsExpand g d) (nf, T2)).2 ∧
    (∀ v m, lookupA T2 v = some m →
      lookupA (todo.foldl (bfsExpand g d) (nf, T2)).2 v = some m) ∧
    (∀ c ∈ todo, ∀ n ∈ get_neighbors g c,
      ∃ m', lookupA (todo.foldl (bfsExpand g d) (nf, T2)).2 n = some m' ∧
        m' ≤ d + 1) := by
  induction todo with
  | nil =>
    intro nf T2 hmid _ _
    exact ⟨hmid, fun v m hv => hv, by simp⟩
  | cons c todo' ih =>
    intro nf T2 hmid hf hT
    have hc2 : lookupA T2 c = some d :=
      hmid.pres c d (hf c (List.mem_cons_self _ _))
    obtain ⟨hmid1, hpres1, hcov1⟩ := bfsVisit_fold_pres (get_neighbors g c) nf T2
      hmid (fun n hn => hn) hc2 hT
    rcases hv : bfsExpand g d (nf, T2) c with ⟨nf1, T21⟩
    have hv' : (get_neighbors g c).foldl (bfsVisit d) (nf, T2) = (nf1, T21) := hv
    rw [hv'] at hmid1 hpres1 hcov1
    obtain ⟨hmid2, hpres2, hcov2⟩ := ih nf1 T21 hmid1
      (fun x hx => hf x (List.mem_cons_of_mem _ hx)) hT
    rw [List.foldl_cons, hv]
    refine ⟨hmid2, fun v m hvv => hpres2 v m (hpres1 v m hvv), ?_⟩
    intro x hx n hn
    rcases List.mem_cons.mp hx with h1 | h1
    · subst h1
      obtain ⟨m', hm', hle⟩ := hcov1 n hn
      exact ⟨m', hpres2 n m' hm', hle⟩
    · exact hcov2 x h1 n hn

/-- Per-layer invariant of the breadth-first search. -/
structure BInv (g : Grid) (s : Cell) (d : Nat) (f : List Cell)
    (T : List (Cell × Nat)) : Prop where
  walk_exact : ∀ v m, (v, m) ∈ T → ∃ l, WalkVia g s l v ∧ l.length = m
  front_val : ∀ c ∈ f, lookupA T c = some d
  expanded : ∀ v m, lookupA T v = some m → v ∈ f ∨
    ∀ n ∈ get_neighbors g v, ∃ m', lookupA T n = some m' ∧ m' ≤ m + 1
  val_le : ∀ v m, (v, m) ∈ T → m ≤ d
  nodupKeys : (T.map Prod.fst).Nodup
  keysIn : ∀ v m, (v, m) ∈ T → v = s ∨ v ∈ allCells g
  startZero : lookupA T s = some 0

theorem bfsStep_pres {g : Grid} {s : Cell} {d : Nat} {f : List Cell}
    {T : List (Cell × Nat)} (hinv : BInv g s d f T) :
    BInv g s (d + 1) (bfsStep g f T d).1 (bfsStep g f T d).2 ∧
    (bfsStep g f T d).2.length = T.length + (bfsStep g f T d).1.length := by
  have hmid0 : BMid g s d T [] T :=
    ⟨fun v m hv => hv, fun v m hv => Or.inl hv, by simp, hinv.walk_exact,
      hinv.nodupKeys, hinv.keysIn, by simp⟩
  obtain ⟨hmid, hpres, hcov⟩ := bfsExpand_fold_pres f [] T hmid0
    hinv.front_val hinv.val_le
  rcases hstep : bfsStep g f T d with ⟨f', T'⟩
  have hstep' : f.foldl (bfsExpand g d) ([], T) = (f', T') := hstep
  rw [hstep'] at hmid hpres hcov
  constructor
  · refine ⟨hmid.walk_exact, hmid.nf_val, ?_, ?_, hmid.nodupKeys, hmid.keysIn,
      hmid.pres s 0 hinv.startZero⟩
    · -- expansion invariant at depth d+1
      intro v m hv
      rcases hmid.origin v m (lookupA_mem _ _ _ hv) with h1 | h1
      · have hvT : lookupA T v = some m := lookupA_of_mem_nodup hinv.nodupKeys h1
        rcases hinv.expanded v m hvT with h2 | h2
        · right
          intro n hn
          have hmd : m = d := by
            have := hinv.front_val v h2
            rw [hvT] at this
            injection this
          obtain ⟨m', hm', hle⟩ := hcov v h2 n hn
          exact ⟨m', hm', by omega⟩
        · right
          intro n hn
          obtain ⟨m', hm', hle⟩ := h2 n hn
          exact ⟨m', hmid.pres n m' hm', hle⟩
      · left; exact h1.2
    · -- value bound at depth d+1
      intro v m hv
      rcases hmid.origin v m hv with h1 | h1
      · exact Nat.le_succ_of_le (hinv.val_le v m h1)
      · omega
  · exact hmid.len

theorem bfsRun_pres {g : Grid} {s : Cell} (k : Nat) :
    ∀ (f : List Cell) (T : List (Cell × Nat)) (d : Nat), BInv g s d f T →
    BInv g s (d + k) (bfsRun g k f T d).1 (bfsRun g k f T d).2 := by
  induction k with
  | zero => intro f T d h; simpa [bfsRun] using h
  | succ k' ih =>
    intro f T d h
    obtain ⟨h1, _⟩ := bfsStep_pres h
    have := ih (bfsStep g f T d).1 (bfsStep g f T d).2 (d + 1) h1
    rw [bfsRun]
    have harith : d + 1 + k' = d + (k' + 1) := by omega
    rw [harith] at this
    exact this

theorem bfsStep_nil (g : Grid) (T : List (Cell × Nat)) (d : Nat) :
    bfsStep g [] T d = ([], T) := rfl

theorem bfsRun_nil (g : Grid) (k : Nat) (T : List (Cell × Nat)) (d : Nat) :
    bfsRun g k [] T d = ([], T) := by
  induction k generalizing d with
  | zero => rfl
  | succ k' ih => rw [bfsRun, bfsStep_nil]; exact ih (d + 1)

/-- The table can hold at most `height*width + 1` cells, so after enough
layers the frontier dies out. -/
theorem bfsRun_frontier_empty {g : Grid} {s : Cell} (k : Nat) :
    ∀ (f : List Cell) (T : List (Cell × Nat)) (d : Nat), BInv g s d f T →
    g.height * g.width + 1 < T.length + k → (bfsRun g k f T d).1 = [] := by
  induction k with
  | zero =>
    intro f T d h hlen
    have := length_le_of_keys g s T h.nodupKeys h.keysIn
    omega
  | succ k' ih =>
    intro f T d h hlen
    obtain ⟨h1, hlen1⟩ := bfsStep_pres h
    rw [bfsRun]
    by_cases hf' : (bfsStep g f T d).1 = []
    · rw [hf', bfsRun_nil]
    · have hpos : 0 < (bfsStep g f T d).1.length := List.length_pos.mpr hf'
      exact ih (bfsStep g f T d).1 (bfsStep g f T d).2 (d + 1) h1 (by omega)

/-- The fully-run breadth-first search: invariant holds and frontier is empty. -/
theorem bfsTable_spec (g : Grid) (s : Cell) :
    BInv g s (g.height * g.width + 2)
      (bfsRun g (g.height * g.width + 2) [s] [(s, 0)] 0).1 (bfsTable g s) ∧
    (bfsRun g (g.height * g.width + 2) [s] [(s, 0)] 0).1 = [] := by
  have hinit : BInv g s 0 [s] [(s, 0)] := by
    refine ⟨?_, ?_, ?_, ?_, ?_, ?_, ?_⟩
    · intro v m hv
      simp at hv
      refine ⟨[], ?_, ?_⟩
      · rw [hv.1]; exact WalkVia.nil s
      · rw [hv.2]; rfl
    · intro c hc
      rw [List.mem_singleton.mp hc]
      simp [lookupA]
    · intro v m hv
      left
      simp [lookupA] at hv
      simp [hv.1]
    · intro v m hv
      simp at hv
      omega
    · simp
    · intro v m hv
      simp at hv
      left; exact hv.1
    · simp [lookupA]
  constructor
  · have := bfsRun_pres (g.height * g.width + 2) [s] [(s, 0)] 0 hinit
    simpa [bfsTable] using this
  · exact bfsRun_frontier_empty (g.height * g.width + 2) [s] [(s, 0)] 0 hinit
      (by simp; omega)

/-- Soundness: every table entry is witnessed by a walk of exactly that length. -/
theorem bfsTable_walk_exact {g : Grid} {s v : Cell} {m : Nat}
    (h : lookupA (bfsTable g s) v = some m) :
    ∃ l, WalkVia g s l v ∧ l.length = m :=
  (bfsTable_spec g s).1.walk_exact v m (lookupA_mem _ _ _ h)

/-- The start cell is recorded at distance 0. -/
theorem bfsTable_start (g : Grid) (s : Cell) :
    lookupA (bfsTable g s) s = some 0 :=
  (bfsTable_spec g s).1.startZero

/-- Closure: the completed table relaxes every edge. -/
theorem bfsTable_closure {g : Grid} {s v n : Cell} {m : Nat}
    (h : lookupA (bfsTable g s) v = some m) (hn : n ∈ get_neighbors g v) :
    ∃ m', lookupA (bfsTable g s) n = some m' ∧ m' ≤ m + 1 := by
  obtain ⟨hinv, hempty⟩ := bfsTable_spec g s
  rcases hinv.expanded v m h with h1 | h1
  · rw [hempty] at h1
    simp at h1
  · exact h1 n hn

/-- Walking from any recorded cell only ever reaches recorded cells. -/
theorem bfsTable_walk_le {g : Grid} {s : Cell} :
    ∀ {a v : Cell} {l : List Cell}, WalkVia g a l v → ∀ ka,
    lookupA (bfsTable g s) a = some ka →
    ∃ m, lookupA (bfsTable g s) v = some m ∧ m ≤ ka + l.length := by
  intro a v l hw
  induction hw with
  | nil a0 => intro ka hka; exact ⟨ka, hka, by simp⟩
  | cons hab h ih =>
    intro ka hka
    obtain ⟨mb, hmb, hmble⟩ := bfsTable_closure hka hab
    obtain ⟨m, hm, hle⟩ := ih mb hmb
    refine ⟨m, hm, ?_⟩
    simp only [List.length_cons]
    omega

/-- Any walk from `s` to `e` bounds the breadth-first distance. -/
theorem bfsDist_le_of_walk {g : Grid} {s e : Cell} {l : List Cell}
    (h : WalkVia g s l e) : ∃ n, bfsDist g s e = some n ∧ n ≤ l.length := by
  obtain ⟨m, hm, hle⟩ := bfsTable_walk_le h 0 (bfsTable_start g s)
  exact ⟨m, hm, by omega⟩

/-- The breadth-first distance is the true shortest-path length: it is realised
by a walk and no walk is shorter. -/
theorem bfsDist_shortest {g : Grid} {s e : Cell} {n : Nat}
    (h : bfsDist g s e = some n) :
    (∃ l, WalkVia g s l e ∧ l.length = n) ∧
    (∀ l, WalkVia g s l e → n ≤ l.length) := by
  refine ⟨bfsTable_walk_exact h, ?_⟩
  intro l hl
  obtain ⟨m, hm, hle⟩ := bfsDist_le_of_walk hl
  rw [h] at hm
  injection hm with hm
  omega

/-- Reachability coincides with the breadth-first search finding the target. -/
theorem reaches_iff_bfsDist (g : Grid) (s e : Cell) :
    Reaches g s e ↔ (bfsDist g s e).isSome := by
  constructor
  · rintro ⟨l, hl⟩
    obtain ⟨n, hn, _⟩ := bfsDist_le_of_walk hl
    rw [hn]; rfl
  · intro h
    rcases hd : bfsDist g s e with _ | n
    · rw [hd] at h; simp at h
    · obtain ⟨⟨l, hl, _⟩, _⟩ := bfsDist_shortest hd
      exact ⟨l, hl⟩

/-! ## The A* solver (`MazeSolver.a_star_solve`)

`queue.PriorityQueue` pops the smallest tuple `(f, (x, y))` under Python tuple
comparison: by `f`, then by row, then by column.  Only "the popped entry has
minimal f-value" matters for correctness. -/

/-- Python tuple comparison on priority-queue entries. -/
def entLE (a b : Nat × Cell) : Prop :=
  a.1 < b.1 ∨ (a.1 = b.1 ∧ (a.2.1 < b.2.1 ∨ (a.2.1 = b.2.1 ∧ a.2.2 ≤ b.2.2)))

instance : DecidablePred fun p : (Nat × Cell) × (Nat × Cell) => entLE p.1 p.2 :=
  fun p => by unfold entLE; infer_instance

instance (a b : Nat × Cell) : Decidable (entLE a b) := by
  unfold entLE; infer_instance

theorem entLE_fst_le {a b : Nat × Cell} (h : entLE a b) : a.1 ≤ b.1 := by
  rcases h with h | h
  · omega
  · omega

theorem entLE_total (a b : Nat × Cell) : entLE a b ∨ entLE b a := by
  unfold entLE
  omega

/-- Select the minimal entry of a nonempty queue. -/
def minEnt (x : Nat × Cell) (xs : List (Nat × Cell)) : Nat × Cell :=
  xs.foldl (fun a b => if entLE b a then b else a) x

/-- `open_set.get()`: remove and return the smallest entry.
Returns `none` on an empty queue (`open_set.empty()` is checked first). -/
def popMin (l : List (Nat × Cell)) : Option ((Nat × Cell) × List (Nat × Cell)) :=
  match l with
  | [] => none
  | x :: xs => some (minEnt x xs, l.erase (minEnt x xs))

theorem minEnt_spec (x : Nat × Cell) (xs : List (Nat × Cell)) :
    minEnt x xs ∈ x :: xs ∧ ∀ y ∈ x :: xs, (minEnt x xs).1 ≤ y.1 := by
  induction xs generalizing x with
  | nil =>
    constructor
    · simp [minEnt]
    · intro y hy
      simp at hy
      simp [minEnt, hy]
  | cons b xs' ih =>
    have hstep : minEnt x (b :: xs') = minEnt (if entLE b x then b else x) xs' := by
      simp [minEnt]
    by_cases hle : entLE b x
    · rw [hstep, if_pos hle]
      obtain ⟨hmem, hmin⟩ := ih b
      constructor
      · rcases List.mem_cons.mp hmem with h1 | h1
        · rw [h1]; simp
        · simp [h1]
      · intro y hy
        rcases List.mem_cons.mp hy with h1 | h1
        · subst h1
          have h2 := hmin b (List.mem_cons_self _ _)
          have h3 := entLE_fst_le hle
          omega
        · exact hmin y h1
    · rw [hstep, if_neg hle]
      obtain ⟨hmem, hmin⟩ := ih x
      constructor
      · rcases List.mem_cons.mp hmem with h1 | h1
        · rw [h1]; exact List.mem_cons_self _ _
        · exact List.mem_cons_of_mem _ (List.mem_cons_of_mem _ h1)
      · intro y hy
        rcases List.mem_cons.mp hy with h1 | h1
        · subst h1
          exact hmin y (List.mem_cons_self _ _)
        · rcases List.mem_cons.mp h1 with h2 | h2
          · rcases entLE_total b x with h3 | h3
            · exact absurd h3 hle
            · have h4 := hmin x (List.mem_cons_self _ _)
              have h5 := entLE_fst_le h3
              rw [h2]
              omega
          · exact hmin y (List.mem_cons_of_mem _ h2)

theorem popMin_nil : popMin [] = none := rfl

theorem popMin_spec {l : List (Nat × Cell)} {m : Nat × Cell}
    {rest : List (Nat × Cell)} (h : popMin l = some (m, rest)) :
    m ∈ l ∧ rest = l.erase m ∧ ∀ y ∈ l, m.1 ≤ y.1 := by
  match l with
  | [] => simp [popMin] at h
  | x :: xs =>
    simp only [popMin, Option.some.injEq, Prod.mk.injEq] at h
    obtain ⟨rfl, rfl⟩ := h
    obtain ⟨hmem, hmin⟩ := minEnt_spec x xs
    exact ⟨hmem, rfl, hmin⟩

/-! ### Solver state and the main loop -/

/-- The mutable state of one `a_star_solve` call: the stored maze plus the
search bookkeeping (`open_set`, `came_from`, `g_score`, `f_score`). -/
structure AState where
  maze : Grid
  openset : List (Nat × Cell)
  came_from : List (Cell × Cell)
  g_score : List (Cell × Nat)
  f_score : List (Cell × Nat)
deriving Repr, DecidableEq

/-- Relaxation of one neighbour (the body of the `for neighbor in ...` loop,
after `tentative_g_score` has been computed from the current cell's g-score):
`if neighbor not in g_score or tentative_g_score < g_score[neighbor]` record
the new back-pointer and scores and push the neighbour. -/
def relaxOne (e current : Cell) (gcur : Nat) (st : AState) (n : Cell) : AState :=
  let tentative := gcur + 1
  let fire := match lookupA st.g_score n with
    | none => true
    | some gn => decide (tentative < gn)
  if fire then
    { st with
      came_from := insertA st.came_from n current,
      g_score := insertA st.g_score n tentative,
      f_score := insertA st.f_score n (tentative + heuristic n e),
      openset := (tentative + heuristic n e, n) :: st.openset }
  else st

/-- Relax every neighbour in order.  Python reads `g_score[current]` afresh for
each neighbour; a missing key would raise `KeyError`, modelled as `none`
(proved unreachable below). -/
def relaxNbs (e current : Cell) : List Cell → AState → Option AState
  | [], st => some st
  | n :: rest, st =>
      match lookupA st.g_score current with
      | none => none
      | some gcur => relaxNbs e current rest (relaxOne e current gcur st n)

/-- Path reconstruction: `while current in came_from` follow back-pointers,
then append `start` and reverse.  The accumulator holds the cells in final
(start-to-end) order of the suffix built so far. -/
def reconstruct (cf : List (Cell × Cell)) (s : Cell) :
    Nat → Cell → List Cell → Option (List Cell)
  | 0, _, _ => none
  | fuel + 1, current, acc =>
      match lookupA cf current with
      | some c => reconstruct cf s fuel c (current :: acc)
      | none => some (s :: acc)

/-- The `while not open_set.empty()` loop.  The outer `none` signals fuel
exhaustion or `KeyError`, both proved unreachable; `some (res, st)` is a
normal return with `res = none` for "no path" and the final solver state. -/
def astarLoop (gr : Grid) (s e : Cell) :
    Nat → AState → Option (Option (List Cell) × AState)
  | 0, _ => none
  | fuel + 1, st =>
      match popMin st.openset with
      | none => some (none, st)
      | some (entry, rest) =>
          let current := entry.2
          let st1 := { st with openset := rest }
          if current = e then
            match reconstruct st1.came_from s (st1.g_score.length + 1) current [] with
            | none => none
            | some p => some (some p, st1)
          else
            match relaxNbs e current (get_neighbors gr current) st1 with
            | none => none
            | some st2 => astarLoop gr s e fuel st2

/-- Initial solver state: `open_set.put((0, start))`, `g_score = {start: 0}`,
`f_score = {start: heuristic(start, end)}`. -/
def initState (gr : Grid) (s e : Cell) : AState :=
  { maze := gr, openset := [(0, s)], came_from := [],
    g_score := [(s, 0)], f_score := [(s, heuristic s e)] }

/-- Fuel that provably suffices for the loop to run to completion. -/
def fuelBound (gr : Grid) : Nat :=
  (gr.height * gr.width + 2) * (gr.height * gr.width + 2) + 2

/-- `a_star_solve` with its full final state. -/
def astarFull (gr : Grid) (s e : Cell) : Option (Option (List Cell) × AState) :=
  astarLoop gr s e (fuelBound gr) (initState gr s e)

/-- `MazeSolver.a_star_solve(start, end)`: the returned value, a path or
Python `None`. -/
def a_star_solve (gr : Grid) (s e : Cell) : Option (List Cell) :=
  match astarFull gr s e with
  | some (r, _) => r
  | none => none

/-! ## The maze generator (`MazeGenerator`)

The generator mutates two numpy arrays (`maze`, `visited`) and draws from the
process-wide `random` module.  CPython's Mersenne-Twister stream is modelled
by a concrete linear congruential generator; none of the properties proved
below depend on the particular pseudo-random stream, only on the fact that
`random.seed(42)` resets it to a value determined by the seed alone, and
`random.shuffle` is a deterministic function of that state. -/

/-- State of the modelled `random` module. -/
abbrev RngState := Nat

/-- `random.seed(n)`: the previous global state is discarded. -/
def pySeed (_old : RngState) (n : Nat) : RngState := n

/-- One step of the modelled generator. -/
def rngNext (r : RngState) : RngState := (r * 1103515245 + 12345) % 2147483648

/-- Draw an integer in `[0, n)` (model of `random._randbelow`). -/
def randBelow (r : RngState) (n : Nat) : Nat × RngState :=
  (rngNext r % n, rngNext r)

/-- A quadruple of carving directions `(dx, dy)`. -/
abbrev Dir4 := (Int × Int) × (Int × Int) × (Int × Int) × (Int × Int)

/-- Swap position 3 with position `j` (Fisher-Yates step `i = 3`). -/
def swap3 (t : Dir4) (j : Nat) : Dir4 :=
  match t, j with
  | (a, b, c, d), 0 => (d, b, c, a)
  | (a, b, c, d), 1 => (a, d, c, b)
  | (a, b, c, d), 2 => (a, b, d, c)
  | t, _ => t

/-- Swap position 2 with position `j` (Fisher-Yates step `i = 2`). -/
def swap2 (t : Dir4) (j : Nat) : Dir4 :=
  match t, j with
  | (a, b, c, d), 0 => (c, b, a, d)
  | (a, b, c, d), 1 => (a, c, b, d)
  | t, _ => t

/-- Swap position 1 with position `j` (Fisher-Yates step `i = 1`). -/
def swap1 (t : Dir4) (j : Nat) : Dir4 :=
  match t, j with
  | (a, b, c, d), 0 => (b, a, c, d)
  | t, _ => t

/-- `random.shuffle` on the four-direction list (Fisher-Yates, as CPython's
shuffle, with the modelled byte stream). -/
def shuffle4 (r : RngState) (t : Dir4) : Dir4 × RngState :=
  let j3 := randBelow r 4
  let t3 := swap3 t j3.1
  let j2 := randBelow j3.2 3
  let t2 := swap2 t3 j2.1
  let j1 := randBelow j2.2 2
  (swap1 t2 j1.1, j1.2)

/-- Read a 2D list entry; the default is only reachable out of range. -/
def get2D {α : Type} (m : List (List α)) (i j : Int) (dflt : α) : α :=
  if 0 ≤ i ∧ 0 ≤ j then (m.getD i.toNat []).getD j.toNat dflt else dflt

/-- Write a 2D list entry (`List.set` ignores out-of-range writes; every write
performed by the generator is guarded in bounds). -/
def set2D {α : Type} (m : List (List α)) (i j : Int) (v : α) : List (List α) :=
  if 0 ≤ i ∧ 0 ≤ j then m.set i.toNat ((m.getD i.toNat []).set j.toNat v)
  else m

/-- Generator state: the `maze` and `visited` arrays plus the global RNG. -/
structure GenSt where
  maze : List (List Int)
  visited : List (List Bool)
  rng : RngState
deriving Repr, DecidableEq

/-- `self.visited[ny, nx]`. -/
def getVisited (st : GenSt) (ny nx : Int) : Bool := get2D st.visited ny nx false

/-- Try one direction from `(cx, cy)` (one iteration of the `for dx, dy in
directions` loop): if the candidate is in bounds and unvisited, mark it,
carve the midpoint and the candidate, and recurse into the candidate via
`carveF`. -/
def tryDir (w h : Int) (carveF : Int → Int → GenSt → Option GenSt)
    (cx cy : Int) (dxy : Int × Int) (st : GenSt) : Option GenSt :=
  let nx := cx + dxy.1
  let ny := cy + dxy.2
  if 0 ≤ nx ∧ nx < w ∧ 0 ≤ ny ∧ ny < h ∧ getVisited st ny nx = false then
    let st1 : GenSt := { st with visited := set2D st.visited ny nx true }
    let st2 : GenSt := { st1 with maze := set2D st1.maze (cy + dxy.2 / 2) (cx + dxy.1 / 2) 1 }
    let st3 : GenSt := { st2 with maze := set2D st2.maze ny nx 1 }
    carveF nx ny st3
  else some st

/-- `MazeGenerator._carve_passages_from(cx, cy)`: shuffle the four step-2
directions, then try them in order.  Fuel-indexed; `none` is fuel exhaustion,
proved unreachable for the bound used by `generate_maze`. -/
def carve (w h : Int) : Nat → Int → Int → GenSt → Option GenSt
  | 0, _, _, _ => none
  | fuel + 1, cx, cy, st =>
      let sh := shuffle4 st.rng ((0, 2), (2, 0), (0, -2), (-2, 0))
      let st0 : GenSt := { st with rng := sh.2 }
      (tryDir w h (carve w h fuel) cx cy sh.1.1 st0).bind fun s1 =>
        (tryDir w h (carve w h fuel) cx cy sh.1.2.1 s1).bind fun s2 =>
          (tryDir w h (carve w h fuel) cx cy sh.1.2.2.1 s2).bind fun s3 =>
            tryDir w h (carve w h fuel) cx cy sh.1.2.2.2 s3

/-- `np.zeros((h, w), dtype=int)`: fails with `ValueError` on negative
dimensions, otherwise an all-zero `h × w` array. -/
def npZerosInt (h w : Int) : Except String (List (List Int)) :=
  if 0 ≤ h ∧ 0 ≤ w then
    Except.ok (List.replicate h.toNat (List.replicate w.toNat 0))
  else Except.error "ValueError: negative dimensions are not allowed"

/-- `np.zeros((h, w), dtype=bool)`. -/
def npZerosBool (h w : Int) : Except String (List (List Bool)) :=
  if 0 ≤ h ∧ 0 ≤ w then
    Except.ok (List.replicate h.toNat (List.replicate w.toNat false))
  else Except.error "ValueError: negative dimensions are not allowed"

/-- numpy item assignment `a[i, j] = v` for a bool array: `IndexError` when the
index is out of range (the generator only ever uses non-negative indices, so
numpy's negative-index wrapping is not modelled). -/
def npSetBool (m : List (List Bool)) (i j : Int) (v : Bool) :
    Except String (List (List Bool)) :=
  if 0 ≤ i ∧ i < (m.length : Int) ∧ 0 ≤ j ∧
      j < (((m.getD i.toNat []).length : Nat) : Int) then
    Except.ok (set2D m i j v)
  else Except.error "IndexError: index out of bounds"

/-- numpy item assignment for an int array. -/
def npSetInt (m : List (List Int)) (i j : Int) (v : Int) :
    Except String (List (List Int)) :=
  if 0 ≤ i ∧ i < (m.length : Int) ∧ 0 ≤ j ∧
      j < (((m.getD i.toNat []).length : Nat) : Int) then
    Except.ok (set2D m i j v)
  else Except.error "IndexError: index out of bounds"

/-- `MazeGenerator.__init__(width, height)`: allocates the arrays and stores
the corner cells; no dimension validation is performed. -/
structure MazeGen where
  width : Int
  height : Int
  maze0 : List (List Int)
  visited0 : List (List Bool)

/-- Construct a `MazeGenerator`; the only failure is numpy's `ValueError`
for negative dimensions. -/
def MazeGen.init (w h : Int) : Except String MazeGen := do
  let m ← npZerosInt h w
  let v ← npZerosBool h w
  Except.ok ⟨w, h, m, v⟩

/-- `MazeGenerator.generate_maze()`: reset the arrays, `random.seed(42)`,
mark the start visited, carve, then force start and end to be paths.
`globalRng` is the state of the process-wide `random` module before the
call; `random.seed(42)` discards it. -/
def generate_maze (mg : MazeGen) (globalRng : RngState) :
    Except String (List (List Int)) := do
  let m0 ← npZerosInt mg.height mg.width
  let v0 ← npZerosBool mg.height mg.width
  let rng1 := pySeed globalRng 42
  let v1 ← npSetBool v0 0 0 true
  match carve mg.width mg.height (mg.height.toNat * mg.width.toNat + 1) 0 0
      ⟨m0, v1, rng1⟩ with
  | none => Except.error "INTERNAL: carve fuel exhausted"
  | some st1 => do
      let m1 ← npSetInt st1.maze 0 0 1
      let m2 ← npSetInt m1 (mg.height - 1) (mg.width - 1) 1
      Except.ok m2

/-- `MazeGenerator(width, height).generate_maze()` as one call. -/
def generateFull (w h : Int) (globalRng : RngState) :
    Except String (List (List Int)) := do
  let mg ← MazeGen.init w h
  generate_maze mg globalRng

/-! ## A* invariants

The solver is verified against the breadth-first oracle through a Dijkstra
style invariant: a cell is *settled* when its recorded g-score equals its
breadth-first distance; every settled cell either still has a queue entry at
(at most) its true f-value, or all its neighbours have already been relaxed
from it. -/

/-- Termination potential for the solver loop. -/
def phiA (gr : Grid) (st : AState) : Nat :=
  (gr.height * gr.width + 2) *
    ((gr.height * gr.width + 1) - st.g_score.length) +
  sumA st.g_score + st.openset.length

/-- Invariant parts not involving the settled-cell frontier. -/
structure ACore (gr : Grid) (s e : Cell) (st : AState) : Prop where
  gs_start : lookupA st.g_score s = some 0
  gs_walk : ∀ v gv, lookupA st.g_score v = some gv →
    ∃ l, WalkVia gr s l v ∧ l.length ≤ gv
  open_ent : ∀ p v, (p, v) ∈ st.openset → (p = 0 ∧ v = s) ∨
    (∃ gv, lookupA st.g_score v = some gv ∧ gv + heuristic v e ≤ p)
  cf_inv : ∀ n c, lookupA st.came_from n = some c → n ∈ get_neighbors gr c ∧
    n ≠ s ∧ ∃ gn gc, lookupA st.g_score n = some gn ∧
      lookupA st.g_score c = some gc ∧ gc < gn
  cf_dom : ∀ v, (lookupA st.g_score v).isSome → v = s ∨
    (lookupA st.came_from v).isSome
  gs_bound : ∀ v gv, (v, gv) ∈ st.g_score → gv + 1 ≤ st.g_score.length
  gs_nodup : (st.g_score.map Prod.fst).Nodup
  gs_keys : ∀ v gv, (v, gv) ∈ st.g_score → v = s ∨ v ∈ allCells gr

/-- The full loop invariant. -/
structure AInv (gr : Grid) (s e : Cell) (st : AState) extends
    ACore gr s e st : Prop where
  settled_frontier : ∀ v dv, lookupA (bfsTable gr s) v = some dv →
    lookupA st.g_score v = some dv →
    (∃ p, (p, v) ∈ st.openset ∧ p ≤ dv + heuristic v e) ∨
    (∀ n ∈ get_neighbors gr v, ∃ gn, lookupA st.g_score n = some gn ∧
      gn ≤ dv + 1)

/-- Case analysis of one relaxation. -/
theorem relaxOne_spec (e current : Cell) (gcur : Nat) (st : AState) (n : Cell) :
    (∃ gn, lookupA st.g_score n = some gn ∧ gn ≤ gcur + 1 ∧
      relaxOne e current gcur st n = st) ∨
    ((lookupA st.g_score n = none ∨
        ∃ gn, lookupA st.g_score n = some gn ∧ gcur + 1 < gn) ∧
      relaxOne e current gcur st n =
        { st with
          came_from := insertA st.came_from n current,
          g_score := insertA st.g_score n (gcur + 1),
          f_score := insertA st.f_score n (gcur + 1 + heuristic n e),
          openset := (gcur + 1 + heuristic n e, n) :: st.openset }) := by
  rcases hl : lookupA st.g_score n with _ | gn
  · right
    exact ⟨Or.inl rfl, by simp [relaxOne, hl]⟩
  · by_cases hlt : gcur + 1 < gn
    · right
      exact ⟨Or.inr ⟨gn, rfl, hlt⟩, by simp [relaxOne, hl, hlt]⟩
    · left
      exact ⟨gn, rfl, by omega, by simp [relaxOne, hl, hlt]⟩

/-- Everything preserved or produced by one relaxation step. -/
theorem relaxOne_pres {gr : Grid} {s e : Cell} {st : AState} {current n : Cell}
    {gcur : Nat} (hc : ACore gr s e st)
    (hcur : lookupA st.g_score current = some gcur)
    (hn : n ∈ get_neighbors gr current) :
    ACore gr s e (relaxOne e current gcur st n) ∧
    (∀ v, v ≠ n → lookupA (relaxOne e current gcur st n).g_score v =
      lookupA st.g_score v) ∧
    (∃ gn', lookupA (relaxOne e current gcur st n).g_score n = some gn' ∧
      gn' ≤ gcur + 1) ∧
    (∀ x ∈ st.openset, x ∈ (relaxOne e current gcur st n).openset) ∧
    (∀ v gv', lookupA (relaxOne e current gcur st n).g_score v = some gv' →
      lookupA st.g_score v ≠ some gv' →
      (gv' + heuristic v e, v) ∈ (relaxOne e current gcur st n).openset) ∧
    phiA gr (relaxOne e current gcur st n) ≤ phiA gr st ∧
    (∀ v gv, lookupA st.g_score v = some gv →
      ∃ gv', lookupA (relaxOne e current gcur st n).g_score v = some gv' ∧
        gv' ≤ gv) ∧
    (relaxOne e current gcur st n).maze = st.maze := by
  have hnc : n ≠ current := by
    intro he
    rw [he] at hn
    exact self_not_mem_get_neighbors gr current hn
  rcases relaxOne_spec e current gcur st n with ⟨gn, hgn, hle, heq⟩ |
    ⟨hfire, heq⟩
  · -- no relaxation: the state is unchanged
    rw [heq]
    refine ⟨hc, fun v _ => rfl, ⟨gn, hgn, hle⟩, fun x hx => hx, ?_, le_refl _,
      fun v gv hv => ⟨gv, hv, le_refl _⟩, rfl⟩
    intro v gv' h1 h2
    exact absurd h1 h2
  · -- the relaxation fires
    have hns : n ≠ s := by
      intro he
      subst he
      rcases hfire with h1 | ⟨gn, h1, h2⟩
      · rw [hc.gs_start] at h1; exact absurd h1 (by simp)
      · rw [hc.gs_start] at h1
        injection h1 with h1
        omega
    have hlookup_other : ∀ v, v ≠ n →
        lookupA (insertA st.g_score n (gcur + 1)) v = lookupA st.g_score v :=
      fun v hv => lookupA_insert_ne _ _ _ _ hv
    have hlookup_n : lookupA (insertA st.g_score n (gcur + 1)) n =
        some (gcur + 1) := lookupA_insert_self _ _ _
    have hcur' : lookupA (insertA st.g_score n (gcur + 1)) current =
        some gcur := by
      rw [hlookup_other current (Ne.symm hnc)]; exact hcur
    have hlen_le : st.g_score.length ≤ (insertA st.g_score n (gcur + 1)).length := by
      rcases hfire with h1 | ⟨gn, h1, _⟩
      · rw [length_insertA_of_none _ _ _ h1]; omega
      · rw [length_insertA_of_some _ _ _ _ h1]
    have hkeys' : ∀ v gv, (v, gv) ∈ insertA st.g_score n (gcur + 1) →
        v = s ∨ v ∈ allCells gr := by
      intro v gv hv
      rcases mem_insertA _ _ _ _ hv with h1 | h1
      · simp only [Prod.mk.injEq] at h1
        rw [h1.1]
        right; exact get_neighbors_subset_allCells hn
      · exact hc.gs_keys v gv h1
    have hnodup' : ((insertA st.g_score n (gcur + 1)).map Prod.fst).Nodup := by
      rcases hfire with h1 | ⟨gn, h1, _⟩
      · rw [keys_insertA_of_none _ _ _ h1]
        refine List.Nodup.append hc.gs_nodup (List.nodup_singleton n) ?_
        intro a ha hb
        rw [List.mem_singleton.mp hb] at ha
        exact (lookupA_eq_none_iff _ n).mp h1 ha
      · rw [keys_insertA_of_some _ _ _ _ h1]
        exact hc.gs_nodup
    have hbound' : ∀ v gv, (v, gv) ∈ insertA st.g_score n (gcur + 1) →
        gv + 1 ≤ (insertA st.g_score n (gcur + 1)).length := by
      intro v gv hv
      have hgcur_mem := lookupA_mem _ _ _ hcur
      have hgcur_bound := hc.gs_bound current gcur hgcur_mem
      rcases mem_insertA _ _ _ _ hv with h1 | h1
      · simp only [Prod.mk.injEq] at h1
        rcases hfire with h2 | ⟨gn, h2, h3⟩
        · rw [length_insertA_of_none _ _ _ h2]
          omega
        · rw [length_insertA_of_some _ _ _ _ h2]
          have := hc.gs_bound n gn (lookupA_mem _ _ _ h2)
          omega
      · have := hc.gs_bound v gv h1
        omega
    rw [heq]
    refine ⟨⟨?_, ?_, ?_, ?_, ?_, hbound', hnodup', hkeys'⟩, ?_, ?_, ?_, ?_, ?_,
      ?_, rfl⟩
    · -- gs_start
      show lookupA (insertA st.g_score n (gcur + 1)) s = some 0
      rw [hlookup_other s (Ne.symm hns)]
      exact hc.gs_start
    · -- gs_walk
      intro v gv hv
      by_cases hvn : v = n
      · subst hvn
        rw [hlookup_n] at hv
        injection hv with hv
        obtain ⟨l0, hw, hlen⟩ := hc.gs_walk current gcur hcur
        refine ⟨l0 ++ [v], hw.snoc hn, ?_⟩
        rw [List.length_append]
        simp
        omega
      · rw [hlookup_other v hvn] at hv
        exact hc.gs_walk v gv hv
    · -- open_ent
      intro p v hv
      rcases List.mem_cons.mp hv with h1 | h1
      · simp only [Prod.mk.injEq] at h1
        right
        refine ⟨gcur + 1, ?_, ?_⟩
        · rw [h1.2, hlookup_n]
        · rw [h1.2, h1.1]
      · rcases hc.open_ent p v h1 with h2 | ⟨gv, hgv, hple⟩
        · left; exact h2
        · right
          by_cases hvn : v = n
          · subst hvn
            refine ⟨gcur + 1, hlookup_n, ?_⟩
            rcases hfire with h3 | ⟨gn, h3, h4⟩
            · rw [hgv] at h3; exact absurd h3 (by simp)
            · rw [hgv] at h3
              injection h3 with h3
              omega
          · exact ⟨gv, by rw [hlookup_other v hvn]; exact hgv, hple⟩
    · -- cf_inv
      intro n0 c0 h0
      by_cases hn0 : n0 = n
      · subst hn0
        rw [lookupA_insert_self] at h0
        injection h0 with h0
        subst h0
        refine ⟨hn, hns, gcur + 1, gcur, hlookup_n, hcur', by omega⟩
      · rw [lookupA_insert_ne _ _ _ _ hn0] at h0
        obtain ⟨hmem0, hns0, gn0, gc0, hgn0, hgc0, hlt0⟩ := hc.cf_inv n0 c0 h0
        refine ⟨hmem0, hns0, gn0, ?_⟩
        by_cases hc0n : c0 = n
        · subst hc0n
          refine ⟨gcur + 1, by rw [hlookup_other n0 hn0]; exact hgn0,
            hlookup_n, ?_⟩
          rcases hfire with h3 | ⟨gn, h3, h4⟩
          · rw [hgc0] at h3; exact absurd h3 (by simp)
          · rw [hgc0] at h3
            injection h3 with h3
            omega
        · exact ⟨gc0, by rw [hlookup_other n0 hn0]; exact hgn0,
            by rw [hlookup_other c0 hc0n]; exact hgc0, hlt0⟩
    · -- cf_dom
      intro v hv
      by_cases hvn : v = n
      · subst hvn
        right
        rw [lookupA_insert_self]
        rfl
      · rw [hlookup_other v hvn] at hv
        rcases hc.cf_dom v hv with h1 | h1
        · left; exact h1
        · right
          rw [lookupA_insert_ne _ _ _ _ hvn]
          exact h1
    · -- untouched lookups
      intro v hv
      exact hlookup_other v hv
    · -- the relaxed neighbour's g-score
      exact ⟨gcur + 1, hlookup_n, le_refl _⟩
    · -- old queue entries survive
      intro x hx
      exact List.mem_cons_of_mem _ hx
    · -- changed cells have a fresh queue entry at their new f-value
      intro v gv' h1 h2
      by_cases hvn : v = n
      · subst hvn
        rw [hlookup_n] at h1
        injection h1 with h1
        subst h1
        exact List.mem_cons_self _ _
      · rw [hlookup_other v hvn] at h1
        exact absurd h1 h2
    · -- the potential does not increase
      show phiA gr ⟨st.maze, (gcur + 1 + heuristic n e, n) :: st.openset,
        insertA st.came_from n current, insertA st.g_score n (gcur + 1),
        insertA st.f_score n (gcur + 1 + heuristic n e)⟩ ≤ phiA gr st
      have hVlen : (insertA st.g_score n (gcur + 1)).length ≤
          gr.height * gr.width + 1 :=
        length_le_of_keys gr s _ hnodup' hkeys'
      have hgbound : gcur + 1 ≤ st.g_score.length :=
        hc.gs_bound current gcur (lookupA_mem _ _ _ hcur)
      rcases hfire with h1 | ⟨gn, h1, h4⟩
      · have hlen := length_insertA_of_none _ _ (gcur + 1) h1
        have hsum := sumA_insertA_of_none _ _ (gcur + 1) h1
        simp only [phiA, hlen, hsum, List.length_cons]
        have : st.g_score.length ≤ gr.height * gr.width := by omega
        have hmul : (gr.height * gr.width + 2) *
            ((gr.height * gr.width + 1) - (st.g_score.length + 1)) +
            (gr.height * gr.width + 2) =
            (gr.height * gr.width + 2) *
            ((gr.height * gr.width + 1) - st.g_score.length) := by
          rw [← Nat.mul_succ]
          congr 1
          omega
        omega
      · have hlen := length_insertA_of_some _ _ (gcur + 1) _ h1
        have hsum := sumA_insertA_of_some _ _ (gcur + 1) _ h1
        simp only [phiA, hlen, List.length_cons]
        omega
    · -- values only decrease
      intro v gv hv
      by_cases hvn : v = n
      · subst hvn
        refine ⟨gcur + 1, hlookup_n, ?_⟩
        rcases hfire with h3 | ⟨gn, h3, h4⟩
        · rw [hv] at h3; exact absurd h3 (by simp)
        · rw [hv] at h3
          injection h3 with h3
          omega
      · exact ⟨gv, by rw [hlookup_other v hvn]; exact hv, le_refl _⟩

/-- Relaxing every neighbour of `current` in order: the fold succeeds and
preserves the core invariant, leaves `current`'s g-score intact, only ever
decreases g-scores, pushes a fresh entry for every changed cell, and leaves
every processed neighbour with a g-score of at most `g[current] + 1`. -/
theorem relaxNbs_spec {gr : Grid} {s e : Cell} (L : List Cell) :
    ∀ (st : AState) (gcur : Nat) (current : Cell), ACore gr s e st →
    lookupA st.g_score current = some gcur →
    (∀ x ∈ L, x ∈ get_neighbors gr current) →
    ∃ st2, relaxNbs e current L st = some st2 ∧
      ACore gr s e st2 ∧
      lookupA st2.g_score current = some gcur ∧
      (∀ x ∈ st.openset, x ∈ st2.openset) ∧
      (∀ v gv, lookupA st.g_score v = some gv →
        ∃ gv', lookupA st2.g_score v = some gv' ∧ gv' ≤ gv) ∧
      (∀ v gv', lookupA st2.g_score v = some gv' →
        lookupA st.g_score v ≠ some gv' →
        (gv' + heuristic v e, v) ∈ st2.openset) ∧
      (∀ x ∈ L, ∃ gx, lookupA st2.g_score x = some gx ∧ gx ≤ gcur + 1) ∧
      phiA gr st2 ≤ phiA gr st ∧
      st2.maze = st.maze := by
  induction L with
  | nil =>
    intro st gcur current hc hcur _
    exact ⟨st, rfl, hc, hcur, fun x hx => hx,
      fun v gv hv => ⟨gv, hv, le_refl _⟩,
      fun v gv' h1 h2 => absurd h1 h2, by simp, le_refl _, rfl⟩
  | cons n L' ih =>
    intro st gcur current hc hcur hL
    have hn : n ∈ get_neighbors gr current := hL n (List.mem_cons_self _ _)
    obtain ⟨hc1, huntouched, ⟨gn1, hgn1, hgn1le⟩, hopen1, hchg1, hphi1, hmono1,
      hmaze1⟩ := relaxOne_pres hc hcur hn
    set st1 := relaxOne e current gcur st n with hst1
    have hnc : n ≠ current := by
      intro he
      rw [he] at hn
      exact self_not_mem_get_neighbors gr current hn
    have hcur1 : lookupA st1.g_score current = some gcur := by
      rw [huntouched current (Ne.symm hnc)]
      exact hcur
    obtain ⟨st2, heq2, hc2, hcur2, hopen2, hmono2, hchg2, hproc2, hphi2,
      hmaze2⟩ := ih st1 gcur current hc1 hcur1
      (fun x hx => hL x (List.mem_cons_of_mem _ hx))
    refine ⟨st2, ?_, hc2, hcur2, ?_, ?_, ?_, ?_, ?_, ?_⟩
    · rw [relaxNbs, hcur]
      exact heq2
    · intro x hx
      exact hopen2 x (hopen1 x hx)
    · intro v gv hv
      obtain ⟨gv1, hgv1, hle1⟩ := hmono1 v gv hv
      obtain ⟨gv2, hgv2, hle2⟩ := hmono2 v gv1 hgv1
      exact ⟨gv2, hgv2, by omega⟩
    · intro v gv' h1 h2
      by_cases hmid : lookupA st1.g_score v = some gv'
      · -- the change happened at the first step; its entry survives the rest
        have := hchg1 v gv' hmid h2
        exact hopen2 _ this
      · exact hchg2 v gv' h1 hmid
    · intro x hx
      rcases List.mem_cons.mp hx with h1 | h1
      · subst h1
        obtain ⟨gx2, hgx2, hle2⟩ := hmono2 x gn1 hgn1
        exact ⟨gx2, hgx2, by omega⟩
      · exact hproc2 x h1
    · omega
    · rw [hmaze2, hmaze1]

/-- The popped cell always has a recorded g-score. -/
theorem popped_has_g {gr : Grid} {s e : Cell} {st : AState} {pp : Nat} {u : Cell}
    (hc : ACore gr s e st) (hmem : (pp, u) ∈ st.openset) :
    ∃ gu, lookupA st.g_score u = some gu := by
  rcases hc.open_ent pp u hmem with ⟨_, rfl⟩ | ⟨gv, hgv, _⟩
  · exact ⟨0, hc.gs_start⟩
  · exact ⟨gv, hgv⟩

/-- Removing queue entries preserves the core invariant. -/
theorem ACore_openset_mono {gr : Grid} {s e : Cell} {st : AState}
    (hc : ACore gr s e st) (l : List (Nat × Cell))
    (hsub : ∀ x ∈ l, x ∈ st.openset) :
    ACore gr s e { st with openset := l } :=
  ⟨hc.gs_start, hc.gs_walk, fun p v hv => hc.open_ent p v (hsub (p, v) hv),
    hc.cf_inv, hc.cf_dom, hc.gs_bound, hc.gs_nodup, hc.gs_keys⟩

/-- One full loop iteration on a non-goal cell: the relaxations succeed,
re-establish the invariant, and strictly decrease the potential. -/
theorem astar_iter {gr : Grid} {s e : Cell} {st : AState} {pp : Nat} {u : Cell}
    {rest : List (Nat × Cell)} (hInv : AInv gr s e st)
    (hpop : popMin st.openset = some ((pp, u), rest)) (hne : u ≠ e) :
    ∃ st2, relaxNbs e u (get_neighbors gr u) { st with openset := rest } =
        some st2 ∧
      AInv gr s e st2 ∧ phiA gr st2 < phiA gr st ∧ st2.maze = st.maze := by
  obtain ⟨hmem, hrest, hmin⟩ := popMin_spec hpop
  have hc := hInv.toACore
  obtain ⟨gu, hgu⟩ := popped_has_g hc hmem
  have hsub : ∀ x ∈ rest, x ∈ st.openset := by
    intro x hx
    rw [hrest] at hx
    exact List.mem_of_mem_erase hx
  have hc1 : ACore gr s e { st with openset := rest } :=
    ACore_openset_mono hc rest hsub
  obtain ⟨st2, heq2, hc2, hcur2, hopen2, hmono2, hchg2, hproc2, hphi2, hmaze2⟩ :=
    relaxNbs_spec (get_neighbors gr u) { st with openset := rest } gu u hc1 hgu
      (fun x hx => hx)
  refine ⟨st2, heq2, ⟨hc2, ?_⟩, ?_, hmaze2⟩
  · -- the settled-cell frontier invariant is restored
    intro v dv hdv hgv2
    by_cases hchanged : lookupA st.g_score v = some dv
    · -- v was already settled before this iteration
      rcases hInv.settled_frontier v dv hdv hchanged with ⟨p, hpmem, hple⟩ | hall
      · by_cases hvu : v = u
        · -- v is the popped cell: all its neighbours were just relaxed
          subst hvu
          right
          intro x hx
          have : gu = dv := by
            rw [hgu] at hchanged
            injection hchanged
          obtain ⟨gx, hgx, hgxle⟩ := hproc2 x hx
          exact ⟨gx, hgx, by omega⟩
        · -- v's witness entry is not the popped one and survives
          left
          have hne' : (p, v) ≠ (pp, u) := by
            intro he
            injection he with h1 h2
            exact hvu h2
          have : (p, v) ∈ rest := by
            rw [hrest]
            exact (List.mem_erase_of_ne hne').mpr hpmem
          exact ⟨p, hopen2 (p, v) this, hple⟩
      · -- all neighbours were already relaxed; g-scores only decrease
        right
        intro x hx
        obtain ⟨gx, hgx, hgxle⟩ := hall x hx
        obtain ⟨gx', hgx', hgx'le⟩ := hmono2 x gx hgx
        exact ⟨gx', hgx', by omega⟩
    · -- v's g-score changed this iteration: a fresh entry was pushed
      left
      exact ⟨dv + heuristic v e, hchg2 v dv hgv2 hchanged, le_refl _⟩
  · -- the potential strictly decreases (the pop shrinks the queue)
    have hlen : rest.length + 1 = st.openset.length := by
      rw [hrest]
      rw [List.length_erase_of_mem hmem]
      have : 0 < st.openset.length := List.length_pos.mpr (by
        intro h0
        rw [h0] at hmem
        simp at hmem)
      omega
    have : phiA gr { st with openset := rest } + 1 = phiA gr st := by
      simp only [phiA]
      omega
    omega

/-- Path reconstruction succeeds and yields a walk from `start` to the popped
cell, of length at most the popped cell's g-score. -/
theorem reconstruct_spec {gr : Grid} {s e : Cell} {st : AState}
    (hc : ACore gr s e st) :
    ∀ (k : Nat) (current : Cell) (gc : Nat) (acc : List Cell),
    lookupA st.g_score current = some gc → gc < k →
    ∃ l, reconstruct st.came_from s k current acc = some ((s :: l) ++ acc) ∧
      WalkVia gr s l current ∧ l.length ≤ gc := by
  intro k
  induction k with
  | zero => intro current gc acc _ h; omega
  | succ k' ih =>
    intro current gc acc hg hlt
    rcases hcf : lookupA st.came_from current with _ | c
    · -- chain ended; by `cf_dom` this can only be the start cell
      have hcs : current = s := by
        rcases hc.cf_dom current (by rw [hg]; rfl) with h1 | h1
        · exact h1
        · rw [hcf] at h1; simp at h1
      refine ⟨[], ?_, ?_, by simp⟩
      · rw [reconstruct, hcf]
        simp
      · rw [hcs]; exact WalkVia.nil s
    · obtain ⟨hmemc, hnsc, gn, gc', hgn, hgc', hlt'⟩ := hc.cf_inv current c hcf
      have hgn_eq : gn = gc := by
        rw [hg] at hgn
        exact (Option.some.inj hgn).symm
      obtain ⟨l', hrec', hw', hlen'⟩ := ih c gc' (current :: acc) hgc'
        (by omega)
      refine ⟨l' ++ [current], ?_, hw'.snoc hmemc, ?_⟩
      · rw [reconstruct]
        simp only [hcf]
        rw [hrec']
        congr 1
        simp
      · rw [List.length_append]
        simp
        omega

/-- With the invariant established and the potential below the fuel, the loop
always returns normally: no fuel exhaustion and no `KeyError`. -/
theorem astarLoop_total {gr : Grid} {s e : Cell} :
    ∀ (fuel : Nat) (st : AState), AInv gr s e st → phiA gr st < fuel →
    ∃ r, astarLoop gr s e fuel st = some r := by
  intro fuel
  induction fuel with
  | zero => intro st _ h; omega
  | succ fuel' ih =>
    intro st hInv hfuel
    rcases hpop : popMin st.openset with _ | ⟨⟨pp, u⟩, rest⟩
    · exact ⟨(none, st), by rw [astarLoop, hpop]⟩
    · obtain ⟨hmem, hrest, hmin⟩ := popMin_spec hpop
      by_cases hue : u = e
      · obtain ⟨gu, hgu⟩ := popped_has_g hInv.toACore hmem
        have hbound : gu < st.g_score.length + 1 := by
          have := hInv.gs_bound u gu (lookupA_mem _ _ _ hgu)
          omega
        obtain ⟨l, hrec, _, _⟩ := reconstruct_spec
          (ACore_openset_mono hInv.toACore rest (fun x hx => by
            rw [hrest] at hx
            exact List.mem_of_mem_erase hx))
          (st.g_score.length + 1) u gu [] hgu hbound
        refine ⟨(some ((s :: l) ++ []), { st with openset := rest }), ?_⟩
        rw [astarLoop, hpop]
        simp only [hue, if_pos]
        rw [hue] at hrec
        rw [hrec]
      · obtain ⟨st2, heq2, hInv2, hphi2, _⟩ := astar_iter hInv hpop hue
        obtain ⟨r, hr⟩ := ih st2 hInv2 (by omega)
        refine ⟨r, ?_⟩
        rw [astarLoop, hpop]
        simp only [hue, if_neg, not_false_iff]
        rw [heq2]
        exact hr

/-- Frontier witness: walking along a shortest walk to a not-yet-settled goal,
some settled cell on the walk still has a queue entry with priority at most
the true distance of the goal.  (The heuristic being consistent is what makes
the f-values along the walk bounded by `n = dist e + h(e,e)`.) -/
theorem settled_chain_witness {gr : Grid} {s e : Cell} {st : AState}
    (hInv : AInv gr s e st) {n : Nat}
    (hdist_e : lookupA (bfsTable gr s) e = some n)
    (hne_g : ∀ ge, lookupA st.g_score e = some ge → ge ≠ n) :
    ∀ (l : List Cell) (a : Cell) (k : Nat),
    WalkVia gr a l e →
    lookupA (bfsTable gr s) a = some k →
    lookupA st.g_score a = some k →
    k + l.length = n →
    ∃ p v, (p, v) ∈ st.openset ∧ p ≤ n := by
  intro l
  induction l with
  | nil =>
    intro a k hw hTa hga hk
    cases hw
    simp at hk
    subst hk
    exact absurd rfl (hne_g k hga)
  | cons b l' ih =>
    intro a k hw hTa hga hk
    cases hw with
    | cons hab hwb =>
      -- the next walk cell is at true distance exactly k + 1
      obtain ⟨mb, hTb, hmble⟩ := bfsTable_closure hTa hab
      have hmb_ge : k + 1 ≤ mb := by
        obtain ⟨lb, hwlb, hlenlb⟩ := bfsTable_walk_exact hTb
        have hcomp : WalkVia gr s (lb ++ l') e := hwlb.append hwb
        have hmin := (@bfsDist_shortest gr s e n
          (by rw [bfsDist]; exact hdist_e)).2 _ hcomp
        rw [List.length_append, hlenlb] at hmin
        simp only [List.length_cons] at hk
        omega
      have hmb : mb = k + 1 := by omega
      rcases hInv.settled_frontier a k hTa hga with ⟨p, hpmem, hple⟩ | hall
      · -- a still has its entry; its priority is at most n by consistency
        refine ⟨p, a, hpmem, ?_⟩
        have hheur : heuristic a e ≤ (b :: l').length :=
          WalkVia.heuristic_le (WalkVia.cons hab hwb)
        simp only [List.length_cons] at hheur hk
        omega
      · -- a was fully relaxed, so b is settled too: recurse along the walk
        obtain ⟨gb, hgb, hgble⟩ := hall b hab
        have hgb_ge : mb ≤ gb := by
          obtain ⟨wlb, hwwlb, hwlenle⟩ := hInv.gs_walk b gb hgb
          obtain ⟨m, hm, hmle⟩ := bfsDist_le_of_walk hwwlb
          rw [bfsDist] at hm
          rw [hTb] at hm
          have := Option.some.inj hm
          omega
        have hgb_eq : gb = k + 1 := by omega
        subst hgb_eq
        rw [hmb] at hTb
        refine ih b (k + 1) hwb hTb hgb ?_
        simp only [List.length_cons] at hk
        omega

/-- Soundness of the loop: any returned path runs from `start` to `end` along
grid moves and has exactly the breadth-first shortest length. -/
theorem astarLoop_sound {gr : Grid} {s e : Cell} :
    ∀ (fuel : Nat) (st : AState) (res : Option (List Cell)) (st' : AState),
    AInv gr s e st →
    astarLoop gr s e fuel st = some (res, st') →
    ∀ p, res = some p →
    ∃ l n, p = s :: l ∧ WalkVia gr s l e ∧ bfsDist gr s e = some n ∧
      l.length = n := by
  intro fuel
  induction fuel with
  | zero => intro st res st' _ h; simp [astarLoop] at h
  | succ fuel' ih =>
    intro st res st' hInv hrun p hres
    subst hres
    rw [astarLoop] at hrun
    rcases hpop : popMin st.openset with _ | ⟨⟨pp, u⟩, rest⟩
    · rw [hpop] at hrun
      simp at hrun
    · rw [hpop] at hrun
      obtain ⟨hmem, hrest, hmin⟩ := popMin_spec hpop
      by_cases hue : u = e
      · -- the goal is popped: the invariant forces optimality
        simp only [hue, if_pos] at hrun
        subst hue
        obtain ⟨gu, hgu⟩ := popped_has_g hInv.toACore hmem
        have hbound : gu < st.g_score.length + 1 := by
          have := hInv.gs_bound u gu (lookupA_mem _ _ _ hgu)
          omega
        have hsub : ∀ x ∈ rest, x ∈ st.openset := by
          intro x hx
          rw [hrest] at hx
          exact List.mem_of_mem_erase hx
        obtain ⟨l, hrec, hwl, hlenl⟩ := reconstruct_spec
          (ACore_openset_mono hInv.toACore rest hsub)
          (st.g_score.length + 1) u gu [] hgu hbound
        rw [hrec] at hrun
        simp only [Option.some.injEq, Prod.mk.injEq] at hrun
        -- the true distance of the goal
        obtain ⟨nd, hnd, hndle⟩ := bfsDist_le_of_walk hwl
        have hTu : lookupA (bfsTable gr s) u = some nd := hnd
        -- optimality: the recorded g-score equals the true distance
        have hgu_eq : gu = nd := by
          by_contra hneq
          have hne_g : ∀ ge, lookupA st.g_score u = some ge → ge ≠ nd := by
            intro ge hge
            rw [hgu] at hge
            have := Option.some.inj hge
            omega
          obtain ⟨lw, hlw, hlwlen⟩ := bfsTable_walk_exact hTu
          have hgs0 : lookupA st.g_score s = some 0 := hInv.gs_start
          have hTs0 : lookupA (bfsTable gr s) s = some 0 := bfsTable_start gr s
          obtain ⟨pw, vw, hpwmem, hpwle⟩ := settled_chain_witness hInv hTu
            hne_g lw s 0 hlw hTs0 hgs0 (by omega)
          -- the popped entry has minimal priority, but its f-value exceeds nd
          have hppw := hmin (pw, vw) hpwmem
          rcases hInv.open_ent pp u hmem with ⟨hpp0, hus⟩ | ⟨gv, hgv, hgvle⟩
          · -- popped entry is the initial (0, start): then u = s and gu = 0
            subst hus
            rw [hgu] at hgs0
            have hgu0 : gu = 0 := Option.some.inj hgs0
            rw [hTu] at hTs0
            have : nd = 0 := Option.some.inj hTs0
            omega
          · rw [hgu] at hgv
            have hgveq : gu = gv := Option.some.inj hgv
            have hheue : heuristic u u = 0 := by simp [heuristic]
            omega
        -- lengths: the reconstruction is no longer than gu, and no walk is
        -- shorter than the true distance
        have hmin_len := (bfsDist_shortest hnd).2 l hwl
        refine ⟨l, nd, ?_, hwl, hnd, by omega⟩
        rw [← hrun.1]
        simp
      · -- a non-goal cell is popped: iterate
        simp only [hue, if_neg, not_false_iff] at hrun
        obtain ⟨st2, heq2, hInv2, _, _⟩ := astar_iter hInv hpop hue
        rw [heq2] at hrun
        exact ih st2 (some p) st' hInv2 hrun p rfl

/-- The invariant holds on entry to the loop. -/
theorem AInv_init (gr : Grid) (s e : Cell) : AInv gr s e (initState gr s e) := by
  refine ⟨⟨?_, ?_, ?_, ?_, ?_, ?_, ?_, ?_⟩, ?_⟩
  · simp [initState, lookupA]
  · intro v gv hv
    simp [initState, lookupA] at hv
    rcases hv with ⟨h1, h2⟩
    refine ⟨[], ?_, by simp⟩
    rw [h1]
    exact WalkVia.nil s
  · intro p v hv
    simp only [initState, List.mem_singleton] at hv
    left
    have h1 : p = 0 := congrArg Prod.fst hv
    have h2 : v = s := congrArg Prod.snd hv
    exact ⟨h1, h2⟩
  · intro n c h
    simp [initState, lookupA] at h
  · intro v hv
    simp [initState, lookupA] at hv
    left
    exact hv
  · intro v gv hv
    simp [initState] at hv
    simp [initState]
    omega
  · simp [initState]
  · intro v gv hv
    simp [initState] at hv
    left
    exact hv.1
  · intro v dv hT hg
    simp [initState, lookupA] at hg
    left
    refine ⟨0, ?_, by omega⟩
    simp [initState, hg.1]

theorem phiA_init_lt (gr : Grid) (s e : Cell) :
    phiA gr (initState gr s e) < fuelBound gr := by
  have h1 : sumA [(s, (0:Nat))] = 0 := by simp [sumA]
  simp only [phiA, initState, fuelBound, List.length_singleton, h1]
  have h3 : gr.height * gr.width + 1 - 1 = gr.height * gr.width := by omega
  rw [h3]
  have h2 := Nat.mul_le_mul_left (gr.height * gr.width + 2)
    (show gr.height * gr.width ≤ gr.height * gr.width + 2 by omega)
  omega

/-- The solver always returns normally, whatever the grid and endpoints. -/
theorem astarFull_isSome (gr : Grid) (s e : Cell) :
    ∃ r, astarFull gr s e = some r :=
  astarLoop_total (fuelBound gr) (initState gr s e) (AInv_init gr s e)
    (phiA_init_lt gr s e)

/-- Relaxation never touches the stored maze. -/
theorem relaxOne_maze (e current : Cell) (gcur : Nat) (st : AState) (n : Cell) :
    (relaxOne e current gcur st n).maze = st.maze := by
  rcases relaxOne_spec e current gcur st n with ⟨_, _, _, h⟩ | ⟨_, h⟩ <;> rw [h]

theorem relaxNbs_maze (e current : Cell) :
    ∀ (L : List Cell) (st st2 : AState),
    relaxNbs e current L st = some st2 → st2.maze = st.maze := by
  intro L
  induction L with
  | nil =>
    intro st st2 h
    simp [relaxNbs] at h
    rw [h]
  | cons n L' ih =>
    intro st st2 h
    rw [relaxNbs] at h
    rcases hg : lookupA st.g_score current with _ | gcur
    · rw [hg] at h; simp at h
    · rw [hg] at h
      have := ih (relaxOne e current gcur st n) st2 h
      rw [this, relaxOne_maze]

/-- The loop never modifies the stored maze. -/
theorem astarLoop_maze {gr : Grid} {s e : Cell} :
    ∀ (fuel : Nat) (st : AState) (res : Option (List Cell)) (st' : AState),
    astarLoop gr s e fuel st = some (res, st') → st'.maze = st.maze := by
  intro fuel
  induction fuel with
  | zero => intro st res st' h; simp [astarLoop] at h
  | succ fuel' ih =>
    intro st res st' h
    rw [astarLoop] at h
    rcases hpop : popMin st.openset with _ | ⟨⟨pp, u⟩, rest⟩
    · rw [hpop] at h
      simp at h
      rw [← h.2]
    · rw [hpop] at h
      by_cases hue : u = e
      · simp only [hue, if_pos] at h
        rcases hrec : reconstruct st.came_from s (st.g_score.length + 1) e [] with
          _ | p0
        · rw [hrec] at h
          simp at h
        · rw [hrec] at h
          simp at h
          rw [← h.2]
      · simp only [hue, if_neg, not_false_iff] at h
        rcases hrel : relaxNbs e u (get_neighbors gr u) { st with openset := rest }
          with _ | st2
        · rw [hrel] at h; simp at h
        · rw [hrel] at h
          have h1 := ih st2 res st' h
          have h2 := relaxNbs_maze e u (get_neighbors gr u) _ _ hrel
          rw [h1, h2]

/-- Top-level soundness of `a_star_solve`. -/
theorem a_star_solve_spec {gr : Grid} {s e : Cell} {p : List Cell}
    (hp : a_star_solve gr s e = some p) :
    ∃ l n, p = s :: l ∧ WalkVia gr s l e ∧ bfsDist gr s e = some n ∧
      l.length = n := by
  rcases h : astarFull gr s e with _ | ⟨res, st'⟩
  · rw [a_star_solve, h] at hp
    simp at hp
  · rw [a_star_solve, h] at hp
    exact astarLoop_sound (fuelBound gr) (initState gr s e) res st'
      (AInv_init gr s e) h p hp

/-! ## Claims about the solver -/

/-- C1: for every grid and every in-bounds start and end cell, whenever
`a_star_solve` returns a path, the number of steps in that path equals the
true shortest-path length between start and end over 4-directional unit-cost
moves through non-wall cells, as computed by the reference breadth-first
search on the same grid (a path of `n + 1` cells makes `n` steps). -/
theorem claim_C1_astar_shortest (gr : Grid) (s e : Cell)
    (hs1 : 0 ≤ s.1) (hs2 : s.1 < (gr.height : Int))
    (hs3 : 0 ≤ s.2) (hs4 : s.2 < (gr.width : Int))
    (he1 : 0 ≤ e.1) (he2 : e.1 < (gr.height : Int))
    (he3 : 0 ≤ e.2) (he4 : e.2 < (gr.width : Int))
    (p : List Cell) (hp : a_star_solve gr s e = some p) :
    ∃ n, bfsDist gr s e = some n ∧ p.length = n + 1 := by
  obtain ⟨l, n, hpl, hw, hd, hlen⟩ := a_star_solve_spec hp
  refine ⟨n, hd, ?_⟩
  rw [hpl]
  simp [hlen]

/-- Witness for C1 on a concrete grid with a wall: the returned 3-cell path
makes 2 steps, the breadth-first distance. -/
theorem claim_C1_witness :
    ∃ n, bfsDist ⟨[[1, 1], [0, 1]]⟩ (0, 0) (1, 1) = some n ∧
      ([((0:Int), (0:Int)), (0, 1), (1, 1)] : List Cell).length = n + 1 :=
  claim_C1_astar_shortest ⟨[[1, 1], [0, 1]]⟩ (0, 0) (1, 1)
    (by decide) (by decide) (by decide) (by decide)
    (by decide) (by decide) (by decide) (by decide)
    [(0, 0), (0, 1), (1, 1)] (by decide)

/-- C2 counterexample: on the 1×1 all-wall grid with start = end = (0,0), the
solver returns the path [(0,0)] whose (only) cell is a wall cell, refuting
part (d) of the claim ("every cell on the path is a Path cell"). -/
theorem claim_C2_counterexample :
    a_star_solve ⟨[[0]]⟩ (0, 0) (0, 0) = some [(0, 0)] ∧
    ¬ (∀ c ∈ ([((0:Int), (0:Int))] : List Cell), (⟨[[0]]⟩ : Grid).get c ≠ 0) := by
  constructor
  · decide
  · decide

/-- C2 (amended): whenever `a_star_solve` returns a path, (a) its first
element is `start`, (b) its last element is `end`, (c) consecutive cells
differ by exactly one unit step along exactly one axis, and (d) every cell
*after the first* is an in-bounds non-wall cell; the start cell itself is
never checked and may be a wall (or even out of bounds). -/
theorem claim_C2_path_valid (gr : Grid) (s e : Cell) (p : List Cell)
    (hp : a_star_solve gr s e = some p) :
    p.head? = some s ∧ p.getLast? = some e ∧
    List.Chain' (fun a b => heuristic a b = 1) p ∧
    ∀ c ∈ p.tail, 0 ≤ c.1 ∧ c.1 < (gr.height : Int) ∧ 0 ≤ c.2 ∧
      c.2 < (gr.width : Int) ∧ gr.get c ≠ 0 := by
  obtain ⟨l, n, hpl, hw, hd, hlen⟩ := a_star_solve_spec hp
  subst hpl
  refine ⟨by simp, ?_, hw.chain_adjacent, ?_⟩
  · rw [List.getLast?_eq_getLast _ (by simp)]
    rw [hw.getLast]
  · intro c hc
    exact hw.mem_props c (by simpa using hc)

/-- Witness for the amended C2. -/
theorem claim_C2_witness :
    ([((0:Int), (0:Int)), (0, 1), (1, 1)] : List Cell).head? = some (0, 0) ∧
    ([((0:Int), (0:Int)), (0, 1), (1, 1)] : List Cell).getLast? = some (1, 1) ∧
    List.Chain' (fun a b => heuristic a b = 1)
      ([((0:Int), (0:Int)), (0, 1), (1, 1)] : List Cell) ∧
    ∀ c ∈ ([((0:Int), (0:Int)), (0, 1), (1, 1)] : List Cell).tail,
      0 ≤ c.1 ∧ c.1 < ((⟨[[1, 1], [0, 1]]⟩ : Grid).height : Int) ∧ 0 ≤ c.2 ∧
      c.2 < ((⟨[[1, 1], [0, 1]]⟩ : Grid).width : Int) ∧
      (⟨[[1, 1], [0, 1]]⟩ : Grid).get c ≠ 0 :=
  claim_C2_path_valid ⟨[[1, 1], [0, 1]]⟩ (0, 0) (1, 1)
    [(0, 0), (0, 1), (1, 1)] (by decide)

/-- C3: when `end` is unreachable from `start` through path cells, the loop
terminates with the frontier exhausted (a normal return carrying the no-path
value `None`, never a malformed or partial path, and not an error). -/
theorem claim_C3_no_path (gr : Grid) (s e : Cell) (h : ¬ Reaches gr s e) :
    a_star_solve gr s e = none ∧
    ∃ st', astarFull gr s e = some (none, st') := by
  obtain ⟨⟨res, st'⟩, hfull⟩ := astarFull_isSome gr s e
  have hres : res = none := by
    rcases hres : res with _ | p
    · rfl
    · exfalso
      rw [hres] at hfull
      obtain ⟨l, n, _, hw, _, _⟩ := astarLoop_sound (fuelBound gr)
        (initState gr s e) (some p) st' (AInv_init gr s e) hfull p rfl
      exact h ⟨l, hw⟩
  subst hres
  exact ⟨by rw [a_star_solve, hfull], ⟨st', hfull⟩⟩

/-- Witness for C3: a grid whose middle row is a full wall. -/
theorem claim_C3_witness :
    a_star_solve ⟨[[1], [0], [1]]⟩ (0, 0) (2, 0) = none ∧
    ∃ st', astarFull ⟨[[1], [0], [1]]⟩ (0, 0) (2, 0) = some (none, st') := by
  have hnr : ¬ Reaches ⟨[[1], [0], [1]]⟩ (0, 0) (2, 0) := by
    intro hr
    have h1 := (reaches_iff_bfsDist _ _ _).mp hr
    have h2 : bfsDist ⟨[[1], [0], [1]]⟩ (0, 0) (2, 0) = none := by decide
    rw [h2] at h1
    simp at h1
  exact claim_C3_no_path _ _ _ hnr

/-- C7 counterexample: with the start cell out of bounds, the solve call does
not fail at all — it runs and even returns a path whose first cell lies
outside the grid. -/
theorem claim_C7_counterexample :
    a_star_solve ⟨[[1]]⟩ (-1, 0) (0, 0) = some [(-1, 0), (0, 0)] := by
  decide

/-- C7 (amended): `a_star_solve` performs no bounds validation on `start` or
`end`; for every grid and every (possibly out-of-bounds) pair of endpoints
the call completes normally with an ordinary result, raising no error. -/
theorem claim_C7_no_bounds_check (gr : Grid) (s e : Cell) :
    ∃ r, astarFull gr s e = some r :=
  astarFull_isSome gr s e

/-- C9: the solver never modifies the grid it is given: the stored maze in
the final solver state is the input grid, whether a path was found or not. -/
theorem claim_C9_grid_read_only (gr : Grid) (s e : Cell)
    (r : Option (List Cell)) (st' : AState)
    (h : astarFull gr s e = some (r, st')) : st'.maze = gr := by
  have h1 := astarLoop_maze (fuelBound gr) (initState gr s e) r st' h
  rw [h1]
  rfl

/-- Witness for C9 on a 1×1 grid. -/
theorem claim_C9_witness :
    astarFull ⟨[[1]]⟩ (0, 0) (0, 0) =
      some (some [(0, 0)],
        ⟨⟨[[1]]⟩, [], [], [((0, 0), 0)], [((0, 0), 0)]⟩) ∧
    (⟨⟨[[1]]⟩, [], [], [((0, 0), 0)], [((0, 0), 0)]⟩ : AState).maze =
      ⟨[[1]]⟩ :=
  ⟨by decide, claim_C9_grid_read_only ⟨[[1]]⟩ (0, 0) (0, 0) (some [(0, 0)])
    ⟨⟨[[1]]⟩, [], [], [((0, 0), 0)], [((0, 0), 0)]⟩ (by decide)⟩

/-- C10: calling the solver with `start = end = c` returns the one-element
path `[c]` immediately, for every grid — in particular the state of cell `c`
is never inspected, so this holds even when `c` is a wall cell or out of
bounds. -/
theorem claim_C10_trivial_path (gr : Grid) (c : Cell) :
    a_star_solve gr c c = some [c] := by
  have hf : fuelBound gr = (fuelBound gr - 1) + 1 := by
    unfold fuelBound
    omega
  rw [a_star_solve, astarFull, hf, astarLoop]
  have hpop : popMin (initState gr c c).openset = some ((0, c), []) := by
    show popMin [(0, c)] = some ((0, c), [])
    simp [popMin, minEnt, List.erase_cons_head]
  rw [hpop]
  simp [reconstruct, lookupA, initState]

/-! ## Generator lemmas -/

/-- Rectangularity of a 2D array. -/
def dims2 {α : Type} (hN wN : Nat) (m : List (List α)) : Prop :=
  m.length = hN ∧ ∀ row ∈ m, row.length = wN

theorem getD_set_self {α : Type} (l : List α) (n : Nat) (a d : α)
    (h : n < l.length) : (l.set n a).getD n d = a := by
  induction l generalizing n with
  | nil => simp at h
  | cons x xs ih =>
    cases n with
    | zero => simp
    | succ n' =>
      simp only [List.set_cons_succ, List.getD_cons_succ]
      exact ih n' (by simpa using h)

theorem getD_set_ne {α : Type} (l : List α) (n k : Nat) (a d : α)
    (h : k ≠ n) : (l.set n a).getD k d = l.getD k d := by
  induction l generalizing n k with
  | nil => simp
  | cons x xs ih =>
    cases n with
    | zero =>
      cases k with
      | zero => exact absurd rfl h
      | succ k' => simp
    | succ n' =>
      cases k with
      | zero => simp
      | succ k' =>
        simp only [List.set_cons_succ, List.getD_cons_succ]
        exact ih n' k' (by omega)

theorem dims2_set {α : Type} {hN wN : Nat} {m : List (List α)} (i j : Nat)
    (v : α) (hd : dims2 hN wN m) :
    dims2 hN wN (m.set i ((m.getD i []).set j v)) := by
  refine ⟨by simp [hd.1], ?_⟩
  intro row hrow
  rcases List.mem_or_eq_of_mem_set hrow with h1 | h1
  · exact hd.2 row h1
  · subst h1
    rw [List.length_set]
    by_cases hi : i < m.length
    · have : m.getD i [] ∈ m := by
        rw [List.getD_eq_getElem _ _ hi]
        exact List.getElem_mem hi
      exact hd.2 _ this
    · -- out of range: the outer set is a no-op, so the written row is a member
      have hset : m.set i ((m.getD i []).set j v) = m := by
        apply List.set_eq_of_length_le
        omega
      rw [hset] at hrow
      have hmem := hd.2 _ hrow
      rw [List.length_set] at hmem
      exact hmem

theorem dims2_set2D {α : Type} {hN wN : Nat} {m : List (List α)} (i j : Int)
    (v : α) (hd : dims2 hN wN m) : dims2 hN wN (set2D m i j v) := by
  rw [set2D]
  split
  · exact dims2_set _ _ _ hd
  · exact hd

theorem get2D_set2D_self {α : Type} (m : List (List α)) (i j : Int) (v d : α)
    (h1 : 0 ≤ i) (h2 : 0 ≤ j) (h3 : i.toNat < m.length)
    (h4 : j.toNat < (m.getD i.toNat []).length) :
    get2D (set2D m i j v) i j d = v := by
  rw [set2D, if_pos ⟨h1, h2⟩, get2D, if_pos ⟨h1, h2⟩]
  rw [getD_set_self _ _ _ _ h3]
  rw [getD_set_self _ _ _ _ h4]

theorem get2D_set2D_ne {α : Type} (m : List (List α)) (i j i' j' : Int)
    (v d : α) (h1 : 0 ≤ i) (h2 : 0 ≤ j) (h1' : 0 ≤ i') (h2' : 0 ≤ j')
    (hne : ¬(i = i' ∧ j = j')) :
    get2D (set2D m i' j' v) i j d = get2D m i j d := by
  rw [set2D, if_pos ⟨h1', h2'⟩, get2D, if_pos ⟨h1, h2⟩, get2D, if_pos ⟨h1, h2⟩]
  by_cases hii : i = i'
  · have hjj : j ≠ j' := fun hj => hne ⟨hii, hj⟩
    subst hii
    by_cases hlt : i.toNat < m.length
    · rw [getD_set_self _ _ _ _ hlt]
      rw [getD_set_ne]
      intro hJ
      exact hjj (by omega)
    · rw [List.set_eq_of_length_le (by omega)]
  · have : i.toNat ≠ i'.toNat := by
      intro hI
      exact hii (by omega)
    rw [getD_set_ne _ _ _ _ _ this]

/-- Number of unvisited cells. -/
def countFalse (m : List (List Bool)) : Nat :=
  (m.map fun row => row.count false).sum

theorem count_false_set_le (row : List Bool) (j : Nat) :
    (row.set j true).count false ≤ row.count false := by
  induction row generalizing j with
  | nil => simp
  | cons b t ih =>
    cases j with
    | zero => simp [List.count_cons]
    | succ j' =>
      simp only [List.set_cons_succ, List.count_cons]
      have := ih j'
      omega

theorem count_false_set_lt (row : List Bool) (j : Nat) (hj : j < row.length)
    (hv : row.getD j true = false) :
    (row.set j true).count false + 1 = row.count false := by
  induction row generalizing j with
  | nil => simp at hj
  | cons b t ih =>
    cases j with
    | zero =>
      simp at hv
      subst hv
      simp [List.count_cons]
    | succ j' =>
      simp only [List.set_cons_succ, List.count_cons]
      have := ih j' (by simpa using hj) (by simpa using hv)
      omega

theorem countFalse_set_le (m : List (List Bool)) (k j : Nat) :
    countFalse (m.set k ((m.getD k []).set j true)) ≤ countFalse m := by
  induction m generalizing k with
  | nil => simp [countFalse]
  | cons row t ih =>
    cases k with
    | zero =>
      simp only [List.getD_cons_zero, List.set_cons_zero, countFalse,
        List.map_cons, List.sum_cons]
      have := count_false_set_le row j
      omega
    | succ k' =>
      simp only [List.getD_cons_succ, List.set_cons_succ, countFalse,
        List.map_cons, List.sum_cons]
      have := ih k'
      simp only [countFalse] at this
      omega

theorem countFalse_set_lt (m : List (List Bool)) (k j : Nat)
    (hk : k < m.length) (hj : j < (m.getD k []).length)
    (hv : (m.getD k []).getD j true = false) :
    countFalse (m.set k ((m.getD k []).set j true)) + 1 = countFalse m := by
  induction m generalizing k with
  | nil => simp at hk
  | cons row t ih =>
    cases k with
    | zero =>
      simp only [List.getD_cons_zero] at hj hv
      simp only [List.getD_cons_zero, List.set_cons_zero, countFalse,
        List.map_cons, List.sum_cons]
      have := count_false_set_lt row j hj hv
      omega
    | succ k' =>
      simp only [List.getD_cons_succ] at hj hv
      simp only [List.getD_cons_succ, List.set_cons_succ, countFalse,
        List.map_cons, List.sum_cons]
      have := ih k' (by simpa using hk) hj hv
      simp only [countFalse] at this
      omega

theorem countFalse_set2D_le (m : List (List Bool)) (i j : Int) :
    countFalse (set2D m i j true) ≤ countFalse m := by
  rw [set2D]
  split
  · exact countFalse_set_le m _ _
  · exact le_refl _

theorem countFalse_set2D_lt (m : List (List Bool)) (i j : Int)
    (h1 : 0 ≤ i) (h2 : 0 ≤ j) (h3 : i.toNat < m.length)
    (h4 : j.toNat < (m.getD i.toNat []).length)
    (hv : get2D m i j false = false) :
    countFalse (set2D m i j true) + 1 = countFalse m := by
  rw [set2D, if_pos ⟨h1, h2⟩]
  apply countFalse_set_lt _ _ _ h3 h4
  rw [get2D, if_pos ⟨h1, h2⟩] at hv
  rcases hb : (m.getD i.toNat []).getD j.toNat true with _ | _
  · rfl
  · -- the entry is true: contradicts reading false with default false in bounds
    exfalso
    have : (m.getD i.toNat []).getD j.toNat false = true := by
      rw [List.getD_eq_getElem _ _ h4] at hb ⊢
      exact hb
    rw [hv] at this
    exact Bool.false_ne_true this

/-- Facts preserved by carving: rectangularity of both arrays and
monotonicity of the number of unvisited cells. -/
def CarvePres (hN wN : Nat) (st st' : GenSt) : Prop :=
  (dims2 hN wN st.visited → dims2 hN wN st'.visited) ∧
  (dims2 hN wN st.maze → dims2 hN wN st'.maze) ∧
  countFalse st'.visited ≤ countFalse st.visited

theorem CarvePres.refl (hN wN : Nat) (st : GenSt) : CarvePres hN wN st st :=
  ⟨id, id, le_refl _⟩

theorem CarvePres.trans {hN wN : Nat} {a b c : GenSt}
    (h1 : CarvePres hN wN a b) (h2 : CarvePres hN wN b c) :
    CarvePres hN wN a c :=
  ⟨fun h => h2.1 (h1.1 h), fun h => h2.2.1 (h1.2.1 h), le_trans h2.2.2 h1.2.2⟩

theorem tryDir_pres {w h : Int} {hN wN : Nat}
    (carveF : Int → Int → GenSt → Option GenSt)
    (hcf : ∀ cx cy st st', carveF cx cy st = some st' → CarvePres hN wN st st') :
    ∀ cx cy d st st', tryDir w h carveF cx cy d st = some st' →
    CarvePres hN wN st st' := by
  intro cx cy d st st' htry
  rw [tryDir] at htry
  split at htry
  · -- the direction fires: three guarded writes, then the recursive carve
    have hmid : CarvePres hN wN st
        ⟨set2D (set2D st.maze (cy + d.2 / 2) (cx + d.1 / 2) 1) (cy + d.2)
          (cx + d.1) 1,
         set2D st.visited (cy + d.2) (cx + d.1) true, st.rng⟩ := by
      refine ⟨fun hd => dims2_set2D _ _ _ hd,
        fun hd => dims2_set2D _ _ _ (dims2_set2D _ _ _ hd), ?_⟩
      exact countFalse_set2D_le _ _ _
    exact hmid.trans (hcf _ _ _ _ htry)
  · -- the direction is skipped
    have : st = st' := by injection htry
    rw [← this]
    exact CarvePres.refl hN wN st
theorem carve_pres {w h : Int} {hN wN : Nat} :
    ∀ (fuel : Nat) (cx cy : Int) (st st' : GenSt),
    carve w h fuel cx cy st = some st' → CarvePres hN wN st st' := by
  intro fuel
  induction fuel with
  | zero => intro cx cy st st' hc; simp [carve] at hc
  | succ f ih =>
    intro cx cy st st' hc
    rw [carve] at hc
    have hpres0 : CarvePres hN wN st
        { st with rng := (shuffle4 st.rng ((0, 2), (2, 0), (0, -2), (-2, 0))).2 } :=
      ⟨id, id, le_refl _⟩
    rcases h1 : tryDir w h (carve w h f) cx cy
        (shuffle4 st.rng ((0, 2), (2, 0), (0, -2), (-2, 0))).1.1
        { st with rng := (shuffle4 st.rng ((0, 2), (2, 0), (0, -2), (-2, 0))).2 }
      with _ | s1
    · rw [h1] at hc; simp at hc
    · rw [h1] at hc
      simp only [Option.some_bind] at hc
      rcases h2 : tryDir w h (carve w h f) cx cy
          (shuffle4 st.rng ((0, 2), (2, 0), (0, -2), (-2, 0))).1.2.1 s1 with _ | s2
      · rw [h2] at hc; simp at hc
      · rw [h2] at hc
        simp only [Option.some_bind] at hc
        rcases h3 : tryDir w h (carve w h f) cx cy
            (shuffle4 st.rng ((0, 2), (2, 0), (0, -2), (-2, 0))).1.2.2.1 s2
          with _ | s3
        · rw [h3] at hc; simp at hc
        · rw [h3] at hc
          simp only [Option.some_bind] at hc
          exact ((((hpres0.trans
            (tryDir_pres _ ih _ _ _ _ _ h1)).trans
            (tryDir_pres _ ih _ _ _ _ _ h2)).trans
            (tryDir_pres _ ih _ _ _ _ _ h3)).trans
            (tryDir_pres _ ih _ _ _ _ _ hc))

/-- With enough fuel the carving recursion cannot run out: every recursive
call is preceded by marking a fresh cell visited, so the number of unvisited
cells bounds the recursion. -/
theorem carve_some {w h : Int} {hN wN : Nat} (hh : h.toNat = hN)
    (hw : w.toNat = wN) :
    ∀ (fuel : Nat) (cx cy : Int) (st : GenSt), dims2 hN wN st.visited →
    dims2 hN wN st.maze → countFalse st.visited < fuel →
    ∃ st', carve w h fuel cx cy st = some st' := by
  intro fuel
  induction fuel with
  | zero => intro cx cy st _ _ hcnt; omega
  | succ f ih =>
    intro cx cy st hdv hdm hcnt
    -- one direction attempt, using the induction hypothesis for the recursion
    have step : ∀ (cx' cy' : Int) (d : Int × Int) (st1 : GenSt),
        dims2 hN wN st1.visited → dims2 hN wN st1.maze →
        countFalse st1.visited < f + 1 →
        ∃ st2, tryDir w h (carve w h f) cx' cy' d st1 = some st2 ∧
          dims2 hN wN st2.visited ∧ dims2 hN wN st2.maze ∧
          countFalse st2.visited ≤ countFalse st1.visited := by
      intro cx' cy' d st1 hdv1 hdm1 hcnt1
      by_cases hg : 0 ≤ cx' + d.1 ∧ cx' + d.1 < w ∧ 0 ≤ cy' + d.2 ∧
          cy' + d.2 < h ∧ getVisited st1 (cy' + d.2) (cx' + d.1) = false
      · -- the candidate is carved and recursed into
        have hrowlen : (st1.visited.getD (cy' + d.2).toNat []).length = wN := by
          have hlt : (cy' + d.2).toNat < st1.visited.length := by
            rw [hdv1.1]
            omega
          rw [List.getD_eq_getElem _ _ hlt]
          exact hdv1.2 _ (List.getElem_mem hlt)
        have hcount : countFalse (set2D st1.visited (cy' + d.2) (cx' + d.1)
            true) + 1 = countFalse st1.visited := by
          refine countFalse_set2D_lt _ _ _ (by omega) (by omega) ?_ ?_ hg.2.2.2.2
          · rw [hdv1.1]; omega
          · rw [hrowlen]; omega
        have hdv3 : dims2 hN wN (set2D st1.visited (cy' + d.2) (cx' + d.1)
            true) := dims2_set2D _ _ _ hdv1
        have hdm3 : dims2 hN wN (set2D (set2D st1.maze (cy' + d.2 / 2)
            (cx' + d.1 / 2) 1) (cy' + d.2) (cx' + d.1) 1) :=
          dims2_set2D _ _ _ (dims2_set2D _ _ _ hdm1)
        obtain ⟨st2, hst2⟩ := ih (cx' + d.1) (cy' + d.2)
          ⟨set2D (set2D st1.maze (cy' + d.2 / 2) (cx' + d.1 / 2) 1)
            (cy' + d.2) (cx' + d.1) 1,
           set2D st1.visited (cy' + d.2) (cx' + d.1) true, st1.rng⟩
          hdv3 hdm3 (by
            show countFalse (set2D st1.visited (cy' + d.2) (cx' + d.1) true) < f
            omega)
        refine ⟨st2, ?_, ?_, ?_, ?_⟩
        · rw [tryDir, if_pos hg]
          exact hst2
        · exact (carve_pres f _ _ _ _ hst2).1 hdv3
        · exact (carve_pres f _ _ _ _ hst2).2.1 hdm3
        · have hle : countFalse st2.visited ≤
              countFalse (set2D st1.visited (cy' + d.2) (cx' + d.1) true) :=
            (@carve_pres w h hN wN f _ _ _ _ hst2).2.2
          show countFalse st2.visited ≤ countFalse st1.visited
          omega
      · exact ⟨st1, by rw [tryDir, if_neg hg], hdv1, hdm1, le_refl _⟩
    obtain ⟨s1, h1, hdv1, hdm1, hc1⟩ := step cx cy _
      { st with rng := (shuffle4 st.rng ((0, 2), (2, 0), (0, -2), (-2, 0))).2 }
      hdv hdm hcnt
    have hc1' : countFalse s1.visited ≤ countFalse st.visited := hc1
    obtain ⟨s2, h2, hdv2, hdm2, hc2⟩ := step cx cy _ s1 hdv1 hdm1 (by omega)
    obtain ⟨s3, h3, hdv3, hdm3, hc3⟩ := step cx cy _ s2 hdv2 hdm2 (by omega)
    obtain ⟨s4, h4, _, _, _⟩ := step cx cy _ s3 hdv3 hdm3 (by omega)
    refine ⟨s4, ?_⟩
    rw [carve]
    rw [h1]
    simp only [Option.some_bind]
    rw [h2]
    simp only [Option.some_bind]
    rw [h3]
    simp only [Option.some_bind]
    exact h4

theorem except_ok_bind {ε α β : Type} (a : α) (f : α → Except ε β) :
    (Except.ok a >>= f : Except ε β) = f a := rfl

theorem except_error_bind {ε α β : Type} (e : ε) (f : α → Except ε β) :
    (Except.error e >>= f : Except ε β) = Except.error e := rfl

theorem except_bind_ok {ε α β : Type} {x : Except ε α} {f : α → Except ε β}
    {b : β} (h : (x >>= f) = Except.ok b) :
    ∃ a, x = Except.ok a ∧ f a = Except.ok b := by
  cases x with
  | error e => rw [except_error_bind] at h; exact absurd h (by simp)
  | ok a => exact ⟨a, rfl, by rw [except_ok_bind] at h; exact h⟩

theorem npSetInt_ok {m : List (List Int)} {i j : Int} {v : Int}
    {m' : List (List Int)} (h : npSetInt m i j v = Except.ok m') :
    0 ≤ i ∧ i < (m.length : Int) ∧ 0 ≤ j ∧
      j < (((m.getD i.toNat []).length : Nat) : Int) ∧ m' = set2D m i j v := by
  rw [npSetInt] at h
  split at h
  · rename_i hcond
    exact ⟨hcond.1, hcond.2.1, hcond.2.2.1, hcond.2.2.2,
      (Except.ok.inj h).symm⟩
  · exact absurd h (by simp)

theorem npZerosInt_ok {h w : Int} {m : List (List Int)}
    (hok : npZerosInt h w = Except.ok m) :
    0 ≤ h ∧ 0 ≤ w ∧ m = List.replicate h.toNat (List.replicate w.toNat 0) := by
  rw [npZerosInt] at hok
  split at hok
  · rename_i hcond
    exact ⟨hcond.1, hcond.2, (Except.ok.inj hok).symm⟩
  · exact absurd hok (by simp)

theorem npZerosBool_ok {h w : Int} {m : List (List Bool)}
    (hok : npZerosBool h w = Except.ok m) :
    0 ≤ h ∧ 0 ≤ w ∧
      m = List.replicate h.toNat (List.replicate w.toNat false) := by
  rw [npZerosBool] at hok
  split at hok
  · rename_i hcond
    exact ⟨hcond.1, hcond.2, (Except.ok.inj hok).symm⟩
  · exact absurd hok (by simp)

theorem npSetBool_ok {m : List (List Bool)} {i j : Int} {v : Bool}
    {m' : List (List Bool)} (h : npSetBool m i j v = Except.ok m') :
    0 ≤ i ∧ i < (m.length : Int) ∧ 0 ≤ j ∧
      j < (((m.getD i.toNat []).length : Nat) : Int) ∧ m' = set2D m i j v := by
  rw [npSetBool] at h
  split at h
  · rename_i hcond
    exact ⟨hcond.1, hcond.2.1, hcond.2.2.1, hcond.2.2.2,
      (Except.ok.inj h).symm⟩
  · exact absurd h (by simp)

theorem MazeGen_init_ok {w h : Int} {mg : MazeGen}
    (hok : MazeGen.init w h = Except.ok mg) :
    0 ≤ h ∧ 0 ≤ w ∧ mg.width = w ∧ mg.height = h := by
  rw [MazeGen.init] at hok
  obtain ⟨m, hm, hok⟩ := except_bind_ok hok
  obtain ⟨v, hv, hok⟩ := except_bind_ok hok
  obtain ⟨hh, hw, _⟩ := npZerosInt_ok hm
  have : mg = ⟨w, h, m, v⟩ := (Except.ok.inj hok).symm
  rw [this]
  exact ⟨hh, hw, rfl, rfl⟩

theorem countFalse_replicate (hN wN : Nat) :
    countFalse (List.replicate hN (List.replicate wN false)) = hN * wN := by
  induction hN with
  | zero => simp [countFalse]
  | succ n ih =>
    simp only [List.replicate_succ, countFalse, List.map_cons, List.sum_cons]
    simp only [countFalse] at ih
    rw [ih, List.count_replicate]
    simp [Nat.succ_mul]
    omega

theorem dims2_replicate {α : Type} (hN wN : Nat) (x : α) :
    dims2 hN wN (List.replicate hN (List.replicate wN x)) := by
  refine ⟨by simp, ?_⟩
  intro row hrow
  rw [List.eq_of_mem_replicate hrow]
  simp

/-! ## Claims about the generator -/

/-- C5: generation is deterministic.  `generate_maze` calls `random.seed(42)`
before drawing anything, so two calls with the same width and height (and
thus trivially the same seed, which is hard-wired) produce bit-identical
grids regardless of the prior state of the process-wide `random` module. -/
theorem generate_maze_seed_resets (mg : MazeGen) (r1 r2 : RngState) :
    generate_maze mg r1 = generate_maze mg r2 := by
  rw [generate_maze, generate_maze]
  rw [show pySeed r1 42 = pySeed r2 42 from rfl]

theorem claim_C5_deterministic (w h : Int) (r1 r2 : RngState) :
    generateFull w h r1 = generateFull w h r2 := by
  show (MazeGen.init w h >>= fun mg => generate_maze mg r1) =
    (MazeGen.init w h >>= fun mg => generate_maze mg r2)
  exact congrArg (fun f => MazeGen.init w h >>= f)
    (funext fun mg => generate_maze_seed_resets mg r1 r2)

/-- `generate_maze` succeeds on positive dimensions: every array operation is
in bounds and the carving fuel suffices. -/
theorem generate_maze_ok (mg : MazeGen) (hw : 0 < mg.width)
    (hh : 0 < mg.height) (r : RngState) :
    ∃ m, generate_maze mg r = Except.ok m := by
  have h0h : (0:Int) ≤ mg.height := by omega
  have h0w : (0:Int) ≤ mg.width := by omega
  have hzi : npZerosInt mg.height mg.width = Except.ok
      (List.replicate mg.height.toNat (List.replicate mg.width.toNat 0)) := by
    rw [npZerosInt, if_pos ⟨h0h, h0w⟩]
  have hzb : npZerosBool mg.height mg.width = Except.ok
      (List.replicate mg.height.toNat
        (List.replicate mg.width.toNat false)) := by
    rw [npZerosBool, if_pos ⟨h0h, h0w⟩]
  have hrow0 : (List.replicate mg.height.toNat
      (List.replicate mg.width.toNat false)).getD 0 [] =
      List.replicate mg.width.toNat false := by
    rcases hn : mg.height.toNat with _ | n
    · omega
    · rw [List.replicate_succ]
      simp
  have hsb : npSetBool (List.replicate mg.height.toNat
      (List.replicate mg.width.toNat false)) 0 0 true = Except.ok (set2D
        (List.replicate mg.height.toNat (List.replicate mg.width.toNat false))
        0 0 true) := by
    rw [npSetBool, if_pos]
    refine ⟨le_refl _, ?_, le_refl _, ?_⟩
    · simp
      omega
    · rw [Int.toNat_zero, hrow0]
      simp
      omega
  have hdv1 : dims2 mg.height.toNat mg.width.toNat (set2D
      (List.replicate mg.height.toNat (List.replicate mg.width.toNat false))
      0 0 true) :=
    dims2_set2D _ _ _ (dims2_replicate _ _ _)
  have hdm0 : dims2 mg.height.toNat mg.width.toNat
      (List.replicate mg.height.toNat
        (List.replicate mg.width.toNat (0:Int))) :=
    dims2_replicate _ _ _
  have hcnt : countFalse (set2D
      (List.replicate mg.height.toNat (List.replicate mg.width.toNat false))
      0 0 true) < mg.height.toNat * mg.width.toNat + 1 := by
    have h1 := countFalse_set2D_le
      (List.replicate mg.height.toNat (List.replicate mg.width.toNat false))
      0 0
    rw [countFalse_replicate] at h1
    omega
  obtain ⟨st1, hst1⟩ := @carve_some mg.width mg.height mg.height.toNat
    mg.width.toNat rfl rfl
    (mg.height.toNat * mg.width.toNat + 1) 0 0
    ⟨List.replicate mg.height.toNat (List.replicate mg.width.toNat 0),
     set2D (List.replicate mg.height.toNat (List.replicate mg.width.toNat
       false)) 0 0 true,
     pySeed r 42⟩ hdv1 hdm0 hcnt
  have hpres := @carve_pres mg.width mg.height mg.height.toNat mg.width.toNat
    (mg.height.toNat * mg.width.toNat + 1) 0 0 _ _ hst1
  have hdm1 : dims2 mg.height.toNat mg.width.toNat st1.maze := hpres.2.1 hdm0
  have hlt0 : (0:Nat) < st1.maze.length := by
    rw [hdm1.1]
    omega
  have hrow1 : (st1.maze.getD 0 []).length = mg.width.toNat := by
    rw [List.getD_eq_getElem _ _ hlt0]
    exact hdm1.2 _ (List.getElem_mem hlt0)
  have hs1 : npSetInt st1.maze 0 0 1 = Except.ok (set2D st1.maze 0 0 1) := by
    rw [npSetInt, if_pos]
    refine ⟨le_refl _, ?_, le_refl _, ?_⟩
    · have := hdm1.1
      omega
    · rw [Int.toNat_zero, hrow1]
      omega
  have hdm2 : dims2 mg.height.toNat mg.width.toNat (set2D st1.maze 0 0 1) :=
    dims2_set2D _ _ _ hdm1
  have hlt2 : (mg.height - 1).toNat < (set2D st1.maze 0 0 1).length := by
    rw [hdm2.1]
    omega
  have hrow2 : ((set2D st1.maze 0 0 1).getD (mg.height - 1).toNat []).length =
      mg.width.toNat := by
    rw [List.getD_eq_getElem _ _ hlt2]
    exact hdm2.2 _ (List.getElem_mem hlt2)
  have hs2 : npSetInt (set2D st1.maze 0 0 1) (mg.height - 1) (mg.width - 1) 1 =
      Except.ok (set2D (set2D st1.maze 0 0 1) (mg.height - 1)
        (mg.width - 1) 1) := by
    rw [npSetInt, if_pos]
    refine ⟨by omega, ?_, by omega, ?_⟩
    · have := hdm2.1
      omega
    · rw [hrow2]
      omega
  refine ⟨set2D (set2D st1.maze 0 0 1) (mg.height - 1) (mg.width - 1) 1, ?_⟩
  rw [generate_maze]
  rw [hzi, except_ok_bind, hzb, except_ok_bind, hsb, except_ok_bind, hst1]
  show (npSetInt st1.maze 0 0 1 >>= fun m1 =>
    npSetInt m1 (mg.height - 1) (mg.width - 1) 1 >>= fun m2 =>
      Except.ok m2) = _
  rw [hs1, except_ok_bind, hs2, except_ok_bind]

/-- C8: for every positive width and height the carving recursion terminates
and generation runs to completion, returning a grid: the state space is
finite and each cell is marked visited at most once before recursing. -/
theorem claim_C8_terminates (w h : Int) (hw : 0 < w) (hh : 0 < h)
    (r : RngState) : ∃ m, generateFull w h r = Except.ok m := by
  have hinit : MazeGen.init w h = Except.ok
      ⟨w, h, List.replicate h.toNat (List.replicate w.toNat 0),
        List.replicate h.toNat (List.replicate w.toNat false)⟩ := by
    rw [MazeGen.init, npZerosInt, if_pos ⟨by omega, by omega⟩, except_ok_bind,
      npZerosBool, if_pos ⟨by omega, by omega⟩, except_ok_bind]
  obtain ⟨m, hm⟩ := generate_maze_ok
    ⟨w, h, List.replicate h.toNat (List.replicate w.toNat 0),
      List.replicate h.toNat (List.replicate w.toNat false)⟩ hw hh r
  refine ⟨m, ?_⟩
  show (MazeGen.init w h >>= fun mg => generate_maze mg r) = _
  rw [hinit, except_ok_bind, hm]

/-- Witness for C8: generating a 3×3 maze succeeds. -/
theorem claim_C8_witness :
    ((0:Int) < 3 ∧ (0:Int) < 3) ∧ ∃ m, generateFull 3 3 0 = Except.ok m :=
  ⟨⟨by decide, by decide⟩, claim_C8_terminates 3 3 (by decide) (by decide) 0⟩

/-- C4: whenever maze generation succeeds, the final grid holds `Path` (1) at
the start cell `(0,0)` and at the end cell `(height-1, width-1)`: the last two
writes of `generate_maze` force them, regardless of what carving did. -/
theorem claim_C4_endpoints_path (w h : Int) (r : RngState)
    (m : List (List Int)) (hgen : generateFull w h r = Except.ok m) :
    get2D m 0 0 0 = 1 ∧ get2D m (h - 1) (w - 1) 0 = 1 := by
  have hgen' : (MazeGen.init w h >>= fun mg => generate_maze mg r) =
      Except.ok m := hgen
  obtain ⟨mg, hmg, hgen2⟩ := except_bind_ok hgen'
  obtain ⟨_, _, hmw, hmh⟩ := MazeGen_init_ok hmg
  rw [← hmw, ← hmh]
  rw [generate_maze] at hgen2
  obtain ⟨m0, hm0, hgen3⟩ := except_bind_ok hgen2
  obtain ⟨v0, hv0, hgen4⟩ := except_bind_ok hgen3
  obtain ⟨v1, hv1, hgen5⟩ := except_bind_ok hgen4
  cases hcarve : carve mg.width mg.height
      (mg.height.toNat * mg.width.toNat + 1) 0 0 ⟨m0, v1, pySeed r 42⟩ with
  | none =>
    rw [hcarve] at hgen5
    exact absurd hgen5 (by simp)
  | some st1 =>
    rw [hcarve] at hgen5
    have hgen6 : (npSetInt st1.maze 0 0 1 >>= fun m1 =>
        npSetInt m1 (mg.height - 1) (mg.width - 1) 1 >>= fun m2 =>
        Except.ok m2) = Except.ok m := hgen5
    obtain ⟨m1, hm1, hgen7⟩ := except_bind_ok hgen6
    obtain ⟨m2, hm2, hgen8⟩ := except_bind_ok hgen7
    obtain ⟨hi1a, hi1b, hj1a, hj1b, hm1e⟩ := npSetInt_ok hm1
    obtain ⟨hi2a, hi2b, hj2a, hj2b, hm2e⟩ := npSetInt_ok hm2
    have hm' : m = set2D m1 (mg.height - 1) (mg.width - 1) 1 := by
      rw [← hm2e]
      exact (Except.ok.inj hgen8).symm
    constructor
    · by_cases hE : mg.height - 1 = 0 ∧ mg.width - 1 = 0
      · obtain ⟨hE1, hE2⟩ := hE
        rw [hm', hE1, hE2]
        rw [hE1] at hi2b hj2b
        rw [hE2] at hj2b
        exact get2D_set2D_self _ _ _ _ _ (by omega) (by omega) (by omega)
          (by omega)
      · rw [hm', get2D_set2D_ne _ _ _ _ _ _ _ (by omega) (by omega) hi2a hj2a
          (fun hc => hE ⟨hc.1.symm, hc.2.symm⟩)]
        rw [hm1e]
        exact get2D_set2D_self _ _ _ _ _ (by omega) (by omega) (by omega)
          (by omega)
    · rw [hm']
      exact get2D_set2D_self _ _ _ _ _ hi2a hj2a (by omega) (by omega)

/-- Witness for C4: the generated 3×3 maze has `Path` at `(0,0)` and at
`(2,2)`. -/
theorem claim_C4_witness :
    generateFull 3 3 0 = Except.ok [[1, 0, 1], [1, 0, 1], [1, 1, 1]] ∧
      (get2D ([[1, 0, 1], [1, 0, 1], [1, 1, 1]] : List (List Int)) 0 0 0
         = 1 ∧
       get2D ([[1, 0, 1], [1, 0, 1], [1, 1, 1]] : List (List Int))
         ((3:Int) - 1) ((3:Int) - 1) 0 = 1) :=
  ⟨by rfl, claim_C4_endpoints_path 3 3 0 [[1, 0, 1], [1, 0, 1], [1, 1, 1]]
    (by rfl)⟩

/-- With non-negative dimensions at least one of which is zero, the arrays are
created empty along one axis and the attempt to mark the start cell visited
(`self.visited[0, 0] = True`) raises numpy's `IndexError`. -/
theorem generate_maze_err (mg : MazeGen) (r : RngState)
    (h0h : 0 ≤ mg.height) (h0w : 0 ≤ mg.width)
    (hz : mg.width = 0 ∨ mg.height = 0) :
    generate_maze mg r = Except.error "IndexError: index out of bounds" := by
  have hC : ¬((0:Int) ≤ 0 ∧ (0:Int) <
      ((List.replicate mg.height.toNat
        (List.replicate mg.width.toNat false)).length : Int) ∧
      (0:Int) ≤ 0 ∧
      (0:Int) < (((List.replicate mg.height.toNat
        (List.replicate mg.width.toNat false)).getD (0:Int).toNat []).length
          : Int)) := by
    intro hc
    rcases hz with hz | hz
    · have h4 := hc.2.2.2
      rcases hn : mg.height.toNat with _ | n
      · have h2 := hc.2.1
        rw [hn] at h2
        simp at h2
      · rw [hn, List.replicate_succ] at h4
        simp at h4
        omega
    · have h2 := hc.2.1
      rw [hz] at h2
      simp at h2
  rw [generate_maze, npZerosInt, if_pos ⟨h0h, h0w⟩, except_ok_bind,
    npZerosBool, if_pos ⟨h0h, h0w⟩, except_ok_bind,
    npSetBool, if_neg hC, except_error_bind]

/-- Counterexample to C6 as stated: generation with width 0 fails, but with
the array library's `IndexError`, not a dedicated `InvalidDimensions` error,
and only after the arrays were rebuilt and the RNG reseeded. -/
theorem claim_C6_counterexample :
    generateFull 0 5 7 = Except.error "IndexError: index out of bounds" ∧
      "IndexError: index out of bounds" ≠ "InvalidDimensions" :=
  ⟨by rfl, by decide⟩

/-- C6 (amended): non-positive dimensions never yield a grid — every such call
fails with an error — but the error is the array library's `ValueError` (for
negative dimensions, at array construction) or `IndexError` (for zero
dimensions, when marking the start cell visited), not a dedicated
`InvalidDimensions` validation performed before any work begins. -/
theorem claim_C6_nonpositive_fails (w h : Int) (r : RngState)
    (hnp : w ≤ 0 ∨ h ≤ 0) :
    ∃ msg, generateFull w h r = Except.error msg := by
  by_cases hne : 0 ≤ h ∧ 0 ≤ w
  · have hinit : MazeGen.init w h = Except.ok
        ⟨w, h, List.replicate h.toNat (List.replicate w.toNat 0),
          List.replicate h.toNat (List.replicate w.toNat false)⟩ := by
      rw [MazeGen.init, npZerosInt, if_pos ⟨hne.1, hne.2⟩, except_ok_bind,
        npZerosBool, if_pos ⟨hne.1, hne.2⟩, except_ok_bind]
    refine ⟨"IndexError: index out of bounds", ?_⟩
    show (MazeGen.init w h >>= fun mg => generate_maze mg r) = _
    rw [hinit, except_ok_bind]
    exact generate_maze_err
      ⟨w, h, List.replicate h.toNat (List.replicate w.toNat 0),
        List.replicate h.toNat (List.replicate w.toNat false)⟩ r
      hne.1 hne.2 (show w = 0 ∨ h = 0 by omega)
  · refine ⟨"ValueError: negative dimensions are not allowed", ?_⟩
    show (MazeGen.init w h >>= fun mg => generate_maze mg r) = _
    have hinit : MazeGen.init w h =
        Except.error "ValueError: negative dimensions are not allowed" := by
      rw [MazeGen.init, npZerosInt, if_neg hne, except_error_bind]
    rw [hinit, except_error_bind]

/-- Witness for the amended C6: width 0 makes generation fail with an error. -/
theorem claim_C6_witness :
    ((0:Int) ≤ 0 ∨ (5:Int) ≤ 0) ∧
      ∃ msg, generateFull 0 5 7 = Except.error msg :=
  ⟨Or.inl (by decide), claim_C6_nonpositive_fails 0 5 7 (Or.inl (by decide))⟩
